import Mathlib

/-!
# Elemental: the `[MR,MC]` distribution and the blocked reflector panel step

A shallow embedding of

* `src/core/DistMatrix/Elemental/MR_MC.cpp`: the assignment operators into a
  `DistMatrix<T,MR,MC>` and its basic stride queries,
* `include/elemental/lapack-like/ApplyPackedReflectors/RLVB.hpp`: one panel
  step of the real local `ApplyPackedReflectorsRLVB` and the two-reflector
  identity of its leading comment,
* `include/elemental/matrices/Redheffer.hpp`: the sequential and the
  distributed Redheffer fill.

Indices, ranks, alignments and strides are natural numbers.
-/

namespace El

/-! ## Process grid -/

/-- Modelled from the spec: the process grid (class `Grid` is not in the
embedded sources), a `Pr x Pc` arrangement of processes: `height = Pr` rows
and `width = Pc` columns. -/
structure Grid where
  height : Nat
  width : Nat
deriving DecidableEq, Repr

namespace Grid

/-- Modelled from the spec: `Grid::Height()`. -/
def Height (g : Grid) : Nat := g.height

/-- Modelled from the spec: `Grid::Width()`. -/
def Width (g : Grid) : Nat := g.width

/-- Modelled from the spec: `Grid::MCSize()`, the size of a grid column
communicator, i.e. the number of process rows `Pr`. -/
def MCSize (g : Grid) : Nat := g.height

/-- Modelled from the spec: `Grid::MRSize()`, the size of a grid row
communicator, i.e. the number of process columns `Pc`. -/
def MRSize (g : Grid) : Nat := g.width

/-- Modelled from the spec: `Grid::VCSize()`, all `Pr*Pc` processes. -/
def VCSize (g : Grid) : Nat := g.height * g.width

/-- Modelled from the spec: `Grid::VRSize()`, all `Pr*Pc` processes. -/
def VRSize (g : Grid) : Nat := g.height * g.width

end Grid

/-- The calling process, identified by its grid coordinate: `gridRow` is its
rank in the `MC` communicator and `gridCol` its rank in the `MR` one. -/
structure Proc where
  gridRow : Nat
  gridCol : Nat
deriving DecidableEq, Repr

/-- Modelled from the spec: the rank in the column-major (`VC`) ordering of
the process at grid coordinate `(gridRow, gridCol)`: `gridRow + gridCol*Pr`. -/
def VCRank (g : Grid) (p : Proc) : Nat := p.gridRow + p.gridCol * g.Height

/-- Modelled from the spec: the grid coordinate of the process with a given
`VC` rank (inverse of `VCRank`). -/
def procOfVCRank (g : Grid) (rank : Nat) : Proc :=
  { gridRow := rank % g.Height, gridCol := rank / g.Height }

/-- The column and row alignments of a distributed matrix. -/
structure Align where
  colAlign : Nat
  rowAlign : Nat
deriving DecidableEq, Repr

/-- Modelled from the spec: `Shift(rank, align, stride)`, the first global
index owned by the process of the given rank: `(rank - align) mod stride`,
computed as `(rank + stride - align) % stride` to stay non-negative. -/
def Shift (rank align stride : Nat) : Nat := (rank + stride - align) % stride

/-! ## Index mapping of `[MC,MR]` -/

namespace MC_MR

/-- Modelled from the spec: `DistMatrix<T,MC,MR>::ColStride()`. -/
def ColStride (g : Grid) : Nat := g.MCSize

/-- Modelled from the spec: `DistMatrix<T,MC,MR>::RowStride()`. -/
def RowStride (g : Grid) : Nat := g.MRSize

/-- Modelled from the spec: rank of the calling process in the column
communicator (`MC`) of an `[MC,MR]` matrix. -/
def ColRank (p : Proc) : Nat := p.gridRow

/-- Modelled from the spec: rank of the calling process in the row
communicator (`MR`) of an `[MC,MR]` matrix. -/
def RowRank (p : Proc) : Nat := p.gridCol

/-- Modelled from the spec: `A.ColShift()`. -/
def ColShift (g : Grid) (A : Align) (p : Proc) : Nat :=
  Shift (ColRank p) A.colAlign (ColStride g)

/-- Modelled from the spec: `A.RowShift()`. -/
def RowShift (g : Grid) (A : Align) (p : Proc) : Nat :=
  Shift (RowRank p) A.rowAlign (RowStride g)

/-- Modelled from the spec: `A.RowOwner(i)`, the rank in the column
communicator of the owner of global row `i`: `(i + colAlign) mod colStride`;
for `[MC,MR]` it is a grid row. -/
def RowOwner (g : Grid) (A : Align) (i : Nat) : Nat :=
  (i + A.colAlign) % ColStride g

/-- Modelled from the spec: `A.ColOwner(j)`, the rank in the row communicator
of the owner of global column `j`: `(j + rowAlign) mod rowStride`; for
`[MC,MR]` it is a grid column. -/
def ColOwner (g : Grid) (A : Align) (j : Nat) : Nat :=
  (j + A.rowAlign) % RowStride g

/-- The calling process owns global entry `(x, y)` of an `[MC,MR]` matrix. -/
def Owns (g : Grid) (A : Align) (p : Proc) (x y : Nat) : Bool :=
  RowOwner g A x == ColRank p && ColOwner g A y == RowRank p

end MC_MR

/-! ## Index mapping and basic queries of `[MR,MC]` -/

namespace MR_MC

/-- The query `DM::ColStride()`: `this->grid_->MRSize()`. -/
def ColStride (g : Grid) : Nat := g.MRSize

/-- The query `DM::RowStride()`: `this->grid_->MCSize()`. -/
def RowStride (g : Grid) : Nat := g.MCSize

/-- The query `DM::DistSize()`: `this->grid_->VRSize()`. -/
def DistSize (g : Grid) : Nat := g.VRSize

/-- The query `DM::CrossSize()`: the constant `1`. -/
def CrossSize (_g : Grid) : Nat := 1

/-- The query `DM::RedundantSize()`: the constant `1`. -/
def RedundantSize (_g : Grid) : Nat := 1

/-- Rank of the calling process in `DM::ColComm()`, the `MR` communicator:
its grid column. -/
def ColRank (p : Proc) : Nat := p.gridCol

/-- Rank of the calling process in `DM::RowComm()`, the `MC` communicator:
its grid row. -/
def RowRank (p : Proc) : Nat := p.gridRow

/-- Modelled from the spec: `this->ColShift()`. -/
def ColShift (g : Grid) (B : Align) (p : Proc) : Nat :=
  Shift (ColRank p) B.colAlign (ColStride g)

/-- Modelled from the spec: `this->RowShift()`. -/
def RowShift (g : Grid) (B : Align) (p : Proc) : Nat :=
  Shift (RowRank p) B.rowAlign (RowStride g)

/-- Modelled from the spec: `this->RowOwner(i)`, the rank in the column
communicator of the owner of global row `i`; for `[MR,MC]` it is a grid
column. -/
def RowOwner (g : Grid) (B : Align) (i : Nat) : Nat :=
  (i + B.colAlign) % ColStride g

/-- Modelled from the spec: `this->ColOwner(j)`, the rank in the row
communicator of the owner of global column `j`; for `[MR,MC]` it is a grid
row. -/
def ColOwner (g : Grid) (B : Align) (j : Nat) : Nat :=
  (j + B.rowAlign) % RowStride g

/-- The process at `p` owns global entry `(x, y)` of an `[MR,MC]` matrix:
its grid column owns row `x` and its grid row owns column `y`. -/
def Owns (g : Grid) (B : Align) (p : Proc) (x y : Nat) : Bool :=
  RowOwner g B x == ColRank p && ColOwner g B y == RowRank p

/-- The process that owns global entry `(x, y)` of an `[MR,MC]` matrix. -/
def Owner (g : Grid) (B : Align) (x y : Nat) : Proc :=
  { gridRow := ColOwner g B y, gridCol := RowOwner g B x }

/-- The `sendRank` of `DM::operator=( const DistMatrix<T,MC,MR>& A )`,
computed by process `p` on a square grid (`gridDim = grid.Height()`). -/
def sendRank (g : Grid) (A B : Align) (p : Proc) : Nat :=
  ColOwner g B (MC_MR.RowShift g A p) + RowOwner g B (MC_MR.ColShift g A p) * g.Height

/-- The `recvRank` of `DM::operator=( const DistMatrix<T,MC,MR>& A )`,
computed by process `p` on a square grid. -/
def recvRank (g : Grid) (A B : Align) (p : Proc) : Nat :=
  MC_MR.RowOwner g A (ColShift g B p) + MC_MR.ColOwner g A (RowShift g B p) * g.Height

/-- The rank `sendRank` as a map on `VC` ranks: the rank computed by the process of
`VC` rank `q`. -/
def sendRankOf (g : Grid) (A B : Align) (q : Nat) : Nat :=
  sendRank g A B (procOfVCRank g q)

/-- The rank `recvRank` as a map on `VC` ranks. -/
def recvRankOf (g : Grid) (A B : Align) (q : Nat) : Nat :=
  recvRank g A B (procOfVCRank g q)

end MR_MC

/-- The square `r x r` grid. -/
def squareGrid (r : Nat) : Grid := { height := r, width := r }

/-! ## The assignment operators of `[MR,MC]` -/

/-- The distribution schemes (`enum Distribution`). -/
inductive Dist
  | MC | MD | MR | VC | VR | STAR | CIRC
deriving DecidableEq, Repr

/-- A distribution pair `[U,V]`: column scheme and row scheme. -/
abbrev DistPair := Dist × Dist

/-- The primitives of namespace `copy` called in `MR_MC.cpp`; `Exchange`
carries the two ranks it is called with. -/
inductive Prim
  | Exchange (sendRank recvRank : Nat)
  | TransposeDist
  | RowFilter
  | ColFilter
  | Filter
  | RowAllToAllPromote
  | ColAllToAllPromote
  | Scatter
deriving DecidableEq, Repr

/-- The statements occurring in the bodies of the assignment operators. -/
inductive Stmt
  /-- The call `copy::P( A, *this )` -/
  | copy (p : Prim)
  /-- The declaration `DistMatrix<T,U,V> X( A )`, or `MakeUnique<DistMatrix<T,U,V>>( A )`: a
  new `[U,V]` matrix built from the `src` matrix -/
  | construct (new src : DistPair)
  /-- The declaration `MakeUnique<DistMatrix<T,U,V>>( this->Grid() )`: a new
  empty matrix -/
  | create (new : DistPair)
  /-- The call `X->AlignColsWith(*this)` -/
  | alignColsWith (x : DistPair)
  /-- The call `X->AlignRowsWith(*this)` -/
  | alignRowsWith (x : DistPair)
  /-- The assignment `*X = *Y` between two local matrices -/
  | assign (dst src : DistPair)
  /-- The call `X.reset()` -/
  | reset (x : DistPair)
  /-- The statement `*this = X`: assignment of a local matrix into the `[MR,MC]` target -/
  | assignThis (src : DistPair)
deriving DecidableEq, Repr

namespace MR_MC

/-- The operator `DM::operator=( const DistMatrix<T,MC,MR>& A )`. -/
def assign_MC_MR (g : Grid) (A B : Align) (p : Proc) : List Stmt :=
  if g.Height = g.Width then
    [Stmt.copy (Prim.Exchange (sendRank g A B p) (recvRank g A B p))]
  else
    [Stmt.copy Prim.TransposeDist]

/-- The operator `DM::operator=( const DistMatrix<T,MC,STAR>& A )`. -/
def assign_MC_STAR : List Stmt :=
  [ Stmt.construct (Dist.VC, Dist.STAR) (Dist.MC, Dist.STAR),
    Stmt.create (Dist.VR, Dist.STAR),
    Stmt.alignColsWith (Dist.VR, Dist.STAR),
    Stmt.assign (Dist.VR, Dist.STAR) (Dist.VC, Dist.STAR),
    Stmt.reset (Dist.VC, Dist.STAR),
    Stmt.assignThis (Dist.VR, Dist.STAR) ]

/-- The operator `DM::operator=( const DistMatrix<T,STAR,MR>& A )`. -/
def assign_STAR_MR : List Stmt :=
  [ Stmt.construct (Dist.STAR, Dist.VR) (Dist.STAR, Dist.MR),
    Stmt.create (Dist.STAR, Dist.VC),
    Stmt.alignRowsWith (Dist.STAR, Dist.VC),
    Stmt.assign (Dist.STAR, Dist.VC) (Dist.STAR, Dist.VR),
    Stmt.reset (Dist.STAR, Dist.VR),
    Stmt.assignThis (Dist.STAR, Dist.VC) ]

/-- The operator `DM::operator=( const DistMatrix<T,MD,STAR>& A )`. -/
def assign_MD_STAR : List Stmt :=
  [ Stmt.construct (Dist.STAR, Dist.STAR) (Dist.MD, Dist.STAR),
    Stmt.assignThis (Dist.STAR, Dist.STAR) ]

/-- The operator `DM::operator=( const DistMatrix<T,STAR,MD>& A )`. -/
def assign_STAR_MD : List Stmt :=
  [ Stmt.construct (Dist.STAR, Dist.STAR) (Dist.STAR, Dist.MD),
    Stmt.assignThis (Dist.STAR, Dist.STAR) ]

/-- The operator `DM::operator=( const DistMatrix<T,MR,STAR>& A )`. -/
def assign_MR_STAR : List Stmt := [Stmt.copy Prim.RowFilter]

/-- The operator `DM::operator=( const DistMatrix<T,STAR,MC>& A )`. -/
def assign_STAR_MC : List Stmt := [Stmt.copy Prim.ColFilter]

/-- The operator `DM::operator=( const DistMatrix<T,VC,STAR>& A )`. -/
def assign_VC_STAR : List Stmt :=
  [ Stmt.construct (Dist.VR, Dist.STAR) (Dist.VC, Dist.STAR),
    Stmt.assignThis (Dist.VR, Dist.STAR) ]

/-- The operator `DM::operator=( const DistMatrix<T,STAR,VC>& A )`. -/
def assign_STAR_VC : List Stmt := [Stmt.copy Prim.RowAllToAllPromote]

/-- The operator `DM::operator=( const DistMatrix<T,VR,STAR>& A )`. -/
def assign_VR_STAR : List Stmt := [Stmt.copy Prim.ColAllToAllPromote]

/-- The operator `DM::operator=( const DistMatrix<T,STAR,VR>& A )`. -/
def assign_STAR_VR : List Stmt :=
  [ Stmt.construct (Dist.STAR, Dist.VC) (Dist.STAR, Dist.VR),
    Stmt.assignThis (Dist.STAR, Dist.VC) ]

/-- The operator `DM::operator=( const DistMatrix<T,STAR,STAR>& A )`. -/
def assign_STAR_STAR : List Stmt := [Stmt.copy Prim.Filter]

/-- The operator `DM::operator=( const DistMatrix<T,CIRC,CIRC>& A )`. -/
def assign_CIRC_CIRC : List Stmt := [Stmt.copy Prim.Scatter]

/-- The operator `DM::operator=( const ElementalMatrix<T>& A )`: the guard on
`(colDist, rowDist)` of the source selects the overload above.  The result is
`none` for a pair with no overload defined in `MR_MC.cpp`. -/
def assign (g : Grid) (A B : Align) (p : Proc) : DistPair → Option (List Stmt)
  | (Dist.CIRC, Dist.CIRC) => some assign_CIRC_CIRC
  | (Dist.MC, Dist.MR) => some (assign_MC_MR g A B p)
  | (Dist.MC, Dist.STAR) => some assign_MC_STAR
  | (Dist.MD, Dist.STAR) => some assign_MD_STAR
  | (Dist.MR, Dist.STAR) => some assign_MR_STAR
  | (Dist.STAR, Dist.MC) => some assign_STAR_MC
  | (Dist.STAR, Dist.MD) => some assign_STAR_MD
  | (Dist.STAR, Dist.MR) => some assign_STAR_MR
  | (Dist.STAR, Dist.STAR) => some assign_STAR_STAR
  | (Dist.STAR, Dist.VC) => some assign_STAR_VC
  | (Dist.STAR, Dist.VR) => some assign_STAR_VR
  | (Dist.VC, Dist.STAR) => some assign_VC_STAR
  | (Dist.VR, Dist.STAR) => some assign_VR_STAR
  | _ => none

end MR_MC

/-! ## Measures on operator bodies -/

/-- A hop: one distribution-to-distribution construction or assignment. -/
def Stmt.isHop : Stmt → Bool
  | Stmt.construct _ _ => true
  | Stmt.assign _ _ => true
  | Stmt.assignThis _ => true
  | _ => false

/-- The number of hops of a body. -/
def hops (body : List Stmt) : Nat := body.countP Stmt.isHop

/-- The distributions of the intermediate matrices a body creates. -/
def intermediates : List Stmt → List DistPair
  | [] => []
  | Stmt.construct new _ :: rest => new :: intermediates rest
  | Stmt.create new :: rest => new :: intermediates rest
  | _ :: rest => intermediates rest

/-- The primitives a body calls, in order. -/
def prims : List Stmt → List Prim
  | [] => []
  | Stmt.copy p :: rest => p :: prims rest
  | _ :: rest => prims rest

/-- The three local filter primitives. -/
def Prim.isFilter : Prim → Bool
  | Prim.RowFilter => true
  | Prim.ColFilter => true
  | Prim.Filter => true
  | _ => false

/-- Modelled from the spec: which primitives communicate (the primitives of
namespace `copy` are not in the embedded sources).  Filter is "purely local
... zero communication"; Exchange, AllToAllPromote, Scatter and the
transpose-distribution send or receive. -/
def Prim.communicates : Prim → Bool
  | Prim.Exchange _ _ => true
  | Prim.TransposeDist => true
  | Prim.RowAllToAllPromote => true
  | Prim.ColAllToAllPromote => true
  | Prim.Scatter => true
  | Prim.RowFilter => false
  | Prim.ColFilter => false
  | Prim.Filter => false

/-- The number of calls to communicating primitives in a body. -/
def commCalls (body : List Stmt) : Nat := (prims body).countP Prim.communicates

/-- A body that is a purely local filter: it consists of a single call, to a
filter primitive. -/
def isLocalFilter (body : List Stmt) : Bool :=
  match body with
  | [Stmt.copy p] => p.isFilter
  | _ => false

/-- The source is replicated along a dimension: its column or row scheme is
`STAR`. -/
def replicatedAlongADim (src : DistPair) : Bool :=
  src.1 == Dist.STAR || src.2 == Dist.STAR

/-- The sources that the `[MR,MC]` assignment does not convert with a single
primitive. -/
def multiHopSources : List DistPair :=
  [ (Dist.MC, Dist.STAR), (Dist.STAR, Dist.MR), (Dist.MD, Dist.STAR), (Dist.STAR, Dist.MD),
    (Dist.VC, Dist.STAR), (Dist.STAR, Dist.VR) ]

/-- The multi-hop sources converted through one intermediate matrix. -/
def twoHopSources : List DistPair :=
  [ (Dist.MD, Dist.STAR), (Dist.STAR, Dist.MD), (Dist.VC, Dist.STAR), (Dist.STAR, Dist.VR) ]

/-- The multi-hop sources converted through two intermediate matrices. -/
def threeHopSources : List DistPair :=
  [ (Dist.MC, Dist.STAR), (Dist.STAR, Dist.MR) ]

/-- The sources whose distribution subsumes the target `[MR,MC]`. -/
def subsumingSources : List DistPair :=
  [ (Dist.MR, Dist.STAR), (Dist.STAR, Dist.MC), (Dist.STAR, Dist.STAR) ]

/-- The dispatched body is exactly one call of the primitive `P`, with no
intermediate matrix, no hop and no other primitive. -/
def IsSingleCall (dispatched : Option (List Stmt)) (P : Prim) : Prop :=
  ∃ body, dispatched = some body ∧ body = [Stmt.copy P] ∧ prims body = [P] ∧
    intermediates body = [] ∧ hops body = 0

/-! ## One panel step of the real local `ApplyPackedReflectorsRLVB`

Matrices are `Matrix (Fin m) (Fin n) ℚ`: exact rational arithmetic. -/

namespace RLVB

variable {m h k : Nat}

/-- The panel width computed in the loop body:
`HPanWidth = min( H11.Width(), max(HPanHeight+offset,0) )`. -/
def HPanWidth (H11Width HPanHeight : Nat) (offset : Int) : Nat :=
  min H11Width (max ((HPanHeight : Int) + offset) 0).toNat

/-- Modelled from the spec: `Zeros( m, n, Z )`, the zero matrix (the routine
is not in the embedded sources). -/
def Zeros (m n : Nat) : Matrix (Fin m) (Fin n) ℚ := fun _ _ => 0

/-- Modelled from the spec: `MakeTrapezoidal( LEFT, LOWER, offset, A )`: the
entries strictly above the diagonal of the given offset (those with
`j - i > offset`) are set to zero (the routine is not in the embedded
sources). -/
def MakeTrapezoidal (offset : Int) (A : Matrix (Fin h) (Fin k) ℚ) : Matrix (Fin h) (Fin k) ℚ :=
  fun i j => if (j.val : Int) - (i.val : Int) > offset then 0 else A i j

/-- Modelled from the spec: `SetDiagonalToOne( LEFT, offset, A )`: the entries
on the diagonal of the given offset (those with `j - i = offset`) are set to
one (the routine is not in the embedded sources). -/
def SetDiagonalToOne (offset : Int) (A : Matrix (Fin h) (Fin k) ℚ) : Matrix (Fin h) (Fin k) ℚ :=
  fun i j => if (j.val : Int) - (i.val : Int) = offset then 1 else A i j

/-- Modelled from the spec: `Syrk( LOWER, TRANSPOSE, alpha, A, beta, C )`: the
lower triangle of `C` becomes `alpha A^T A + beta C`, the strictly upper
triangle is not touched (the routine is not in the embedded sources). -/
def SyrkLT (alpha : ℚ) (A : Matrix (Fin h) (Fin k) ℚ) (beta : ℚ)
    (C : Matrix (Fin k) (Fin k) ℚ) : Matrix (Fin k) (Fin k) ℚ :=
  fun i j => if j ≤ i then alpha * (∑ l, A l i * A l j) + beta * C i j else C i j

/-- Modelled from the spec: `HalveMainDiagonal( A )` (the routine is not in
the embedded sources). -/
def HalveMainDiagonal (A : Matrix (Fin k) (Fin k) ℚ) : Matrix (Fin k) (Fin k) ℚ :=
  fun i j => if i = j then A i j / 2 else A i j

/-- Modelled from the spec: `Gemm( NORMAL, NORMAL, alpha, A, B, beta, C )`:
`C := alpha A B + beta C` (the routine is not in the embedded sources). -/
def GemmNN (alpha : ℚ) (A : Matrix (Fin m) (Fin h) ℚ) (B : Matrix (Fin h) (Fin k) ℚ)
    (beta : ℚ) (C : Matrix (Fin m) (Fin k) ℚ) : Matrix (Fin m) (Fin k) ℚ :=
  fun r c => alpha * (∑ l, A r l * B l c) + beta * C r c

/-- Modelled from the spec: `Gemm( NORMAL, TRANSPOSE, alpha, A, B, beta, C )`:
`C := alpha A B^T + beta C` (the routine is not in the embedded sources). -/
def GemmNT (alpha : ℚ) (A : Matrix (Fin m) (Fin k) ℚ) (B : Matrix (Fin h) (Fin k) ℚ)
    (beta : ℚ) (C : Matrix (Fin m) (Fin h) ℚ) : Matrix (Fin m) (Fin h) ℚ :=
  fun r c => alpha * (∑ l, A r l * B c l) + beta * C r c

/-- One column of the substitution that solves `X L = B` for lower
triangular `L`: column `j` of `X` is computed from the columns to its right,
`X(:,j) := ( X(:,j) - sum_{i>j} X(:,i) L(i,j) ) / L(j,j)`. -/
def trsmColumn (L : Matrix (Fin k) (Fin k) ℚ) (j : Fin k) (X : Matrix (Fin m) (Fin k) ℚ) :
    Matrix (Fin m) (Fin k) ℚ :=
  fun r c =>
    if c = j then (X r j - ∑ i, if j < i then X r i * L i j else 0) / L j j else X r c

/-- Modelled from the spec: `Trsm( RIGHT, LOWER, NORMAL, NON_UNIT, alpha, L, B )`:
`B := alpha B L^{-1}`, computed by substitution over the columns from the
last one to the first one (the routine is not in the embedded sources). -/
def TrsmRLN (alpha : ℚ) (L : Matrix (Fin k) (Fin k) ℚ) (B : Matrix (Fin m) (Fin k) ℚ) :
    Matrix (Fin m) (Fin k) ℚ :=
  (List.finRange k).foldr (trsmColumn L) (fun r c => alpha * B r c)

/-- The copy of the panel made unit lower trapezoidal:
`HPanCopy = HPan; MakeTrapezoidal( LEFT, LOWER, offset, HPanCopy );
SetDiagonalToOne( LEFT, offset, HPanCopy )`. -/
def HPanCopy (offset : Int) (HPan : Matrix (Fin h) (Fin k) ℚ) : Matrix (Fin h) (Fin k) ℚ :=
  SetDiagonalToOne offset (MakeTrapezoidal offset HPan)

/-- The matrix `SInv` of the loop body:
`Syrk( LOWER, TRANSPOSE, 1, HPanCopy, 0, SInv ); HalveMainDiagonal( SInv )`,
starting from `Zeros( HPanWidth, HPanWidth, SInv )`. -/
def SInv (offset : Int) (HPan : Matrix (Fin h) (Fin k) ℚ) : Matrix (Fin k) (Fin k) ℚ :=
  HalveMainDiagonal (SyrkLT 1 (HPanCopy offset HPan) 0 (Zeros k k))

/-- The matrix `Z` of the loop body after
`Gemm( NORMAL, NORMAL, 1, ARight, HPanCopy, 0, Z )` and
`Trsm( RIGHT, LOWER, NORMAL, NON_UNIT, 1, SInv, Z )`, starting from
`Zeros( ARight.Height(), HPanWidth, Z )`. -/
def Z (offset : Int) (HPan : Matrix (Fin h) (Fin k) ℚ) (ARight : Matrix (Fin m) (Fin h) ℚ) :
    Matrix (Fin m) (Fin k) ℚ :=
  TrsmRLN 1 (SInv offset HPan) (GemmNN 1 ARight (HPanCopy offset HPan) 0 (Zeros m k))

/-- The body of the `while` loop of the real local
`internal::ApplyPackedReflectorsRLVB( offset, H, A )` between the two comment
rules: the new value of `ARight` from the panel `HPan` and the old `ARight`,
ending with `Gemm( NORMAL, TRANSPOSE, -1, Z, HPanCopy, 1, ARight )`. -/
def panelStep (offset : Int) (HPan : Matrix (Fin h) (Fin k) ℚ)
    (ARight : Matrix (Fin m) (Fin h) ℚ) : Matrix (Fin m) (Fin h) ℚ :=
  GemmNT (-1) (Z offset HPan ARight) (HPanCopy offset HPan) 1 ARight

/-- The scalar of the `j`-th reflector of the real case:
`tau_j = 2/(u_j^T u_j)`. -/
def tau (U : Matrix (Fin h) (Fin k) ℚ) (j : Fin k) : ℚ :=
  2 / ∑ l, U l j * U l j

/-- The `j`-th Householder reflector `H_j = I - tau_j u_j u_j^T`, where `u_j`
is column `j` of `U`. -/
def householder (U : Matrix (Fin h) (Fin k) ℚ) (j : Fin k) : Matrix (Fin h) (Fin h) ℚ :=
  fun a b => (if a = b then 1 else 0) - tau U j * U a j * U b j

/-- The product `A * H_{k-1} * ... * H_1 * H_0`: the reflectors are applied
from the right, the last one first. -/
def applyReflectors (U : Matrix (Fin h) (Fin k) ℚ) (A : Matrix (Fin m) (Fin h) ℚ) :
    Matrix (Fin m) (Fin h) ℚ :=
  (List.finRange k).foldr (fun j C => C * householder U j) A

end RLVB

/-- The fully linear-cyclic one-dimensional distributions `[VC,STAR]`,
`[VR,STAR]`, `[STAR,VC]` and `[STAR,VR]`. -/
def isLinearCyclic1D (d : DistPair) : Bool :=
  d == (Dist.VC, Dist.STAR) || d == (Dist.VR, Dist.STAR) ||
  d == (Dist.STAR, Dist.VC) || d == (Dist.STAR, Dist.VR)

/-- The multi-hop sources converted through linear-cyclic intermediates. -/
def linearCyclicHopSources : List DistPair :=
  [ (Dist.MC, Dist.STAR), (Dist.STAR, Dist.MR), (Dist.VC, Dist.STAR), (Dist.STAR, Dist.VR) ]

/-- The multi-hop sources converted through a fully replicated intermediate. -/
def replicatedHopSources : List DistPair :=
  [ (Dist.MD, Dist.STAR), (Dist.STAR, Dist.MD) ]

/-! ## The product of two reflectors

The identity of the comment that precedes `internal::ApplyPackedReflectorsRLVB`. -/

namespace RLVB

section TwoReflectors

variable {K : Type} [Field K] [StarRing K] {n : Nat}

/-- The inner product `u^H v` of two vectors. -/
def hdot (u v : Fin n → K) : K := ∑ i, star (u i) * v i

/-- The reflector `I - tau u u^H` of the comment that precedes
`internal::ApplyPackedReflectorsRLVB`. -/
def reflector (tau : K) (u : Fin n → K) : Matrix (Fin n) (Fin n) K :=
  fun a b => (if a = b then 1 else 0) - tau * u a * star (u b)

/-- The matrix `[ u_0, u_1 ]` with the two vectors as its columns. -/
def columns (u0 u1 : Fin n → K) : Matrix (Fin n) (Fin 2) K :=
  fun a c => if c = 0 then u0 a else u1 a

/-- The lower-triangular center matrix `S` of the comment:
`[ tau_0, 0 ; -tau_0 tau_1 u_1^H u_0, tau_1 ]`. -/
def centerS (tau0 tau1 : K) (u0 u1 : Fin n → K) : Matrix (Fin 2) (Fin 2) K :=
  fun i j =>
    if i = 0 then (if j = 0 then tau0 else 0)
    else (if j = 0 then -(tau0 * tau1 * hdot u1 u0) else tau1)

/-- The matrix `T` of the comment: `tril(T) = tril( U^H U )` strictly below
the diagonal and `diag(T) = 1/t`, for `U = [ u_0, u_1 ]` and
`t = (tau_0, tau_1)`. -/
def centerT (tau0 tau1 : K) (u0 u1 : Fin n → K) : Matrix (Fin 2) (Fin 2) K :=
  fun i j =>
    if i = j then 1 / (if i = 0 then tau0 else tau1)
    else if j < i then ((columns u0 u1).conjTranspose * columns u0 u1) i j
    else 0

end TwoReflectors

end RLVB

/-! ## The Redheffer matrix -/

/-- Modelled from the spec: the local matrix `Matrix<T>` (the class is not in
the embedded sources): its dimensions and its entries by local offset. -/
structure LocalMatrix (T : Type) where
  height : Nat
  width : Nat
  entry : Nat → Nat → T

namespace LocalMatrix

variable {T : Type}

/-- Modelled from the spec: `Matrix<T>::ResizeTo( height, width )`: the
dimensions are set; nothing is promised about the entries. -/
def ResizeTo (M : LocalMatrix T) (height width : Nat) : LocalMatrix T :=
  { M with height := height, width := width }

/-- Modelled from the spec: `Matrix<T>::Set( i, j, alpha )`: the entry at
local offset `(i, j)` is written; an offset out of bounds is an error. -/
def Set (M : LocalMatrix T) (i j : Nat) (alpha : T) : Option (LocalMatrix T) :=
  if i < M.height ∧ j < M.width then
    some { M with entry := fun a b => if a = i ∧ b = j then alpha else M.entry a b }
  else
    none

end LocalMatrix

/-- Modelled from the spec: `Length( n, shift, stride )`, the number of the
global indices `shift, shift + stride, shift + 2 stride, ...` below `n`,
which is the local extent of a dimension of global extent `n`. -/
def Length (n shift stride : Nat) : Nat :=
  if n > shift then (n - shift - 1) / stride + 1 else 0

/-- Modelled from the spec: the distributed matrix `DistMatrix<T,U,V>` as one
process sees it (the class is not in the embedded sources): the global
dimensions, the shifts and strides of the process and its local block. -/
structure DistMatrix (T : Type) where
  height : Nat
  width : Nat
  colShift : Nat
  rowShift : Nat
  colStride : Nat
  rowStride : Nat
  localMatrix : LocalMatrix T

namespace DistMatrix

variable {T : Type}

/-- Modelled from the spec: `DistMatrix::ResizeTo( height, width )`: the
global dimensions are set and the local block is resized to the number of
global indices the process owns in each dimension. -/
def ResizeTo (R : DistMatrix T) (height width : Nat) : DistMatrix T :=
  { R with
    height := height
    width := width
    localMatrix := R.localMatrix.ResizeTo (Length height R.colShift R.colStride)
      (Length width R.rowShift R.rowStride) }

/-- Modelled from the spec: `R.LocalHeight()`. -/
def LocalHeight (R : DistMatrix T) : Nat := R.localMatrix.height

/-- Modelled from the spec: `R.LocalWidth()`. -/
def LocalWidth (R : DistMatrix T) : Nat := R.localMatrix.width

/-- Modelled from the spec: `R.ColShift()`. -/
def ColShift (R : DistMatrix T) : Nat := R.colShift

/-- Modelled from the spec: `R.RowShift()`. -/
def RowShift (R : DistMatrix T) : Nat := R.rowShift

/-- Modelled from the spec: `R.ColStride()`. -/
def ColStride (R : DistMatrix T) : Nat := R.colStride

/-- Modelled from the spec: `R.RowStride()`. -/
def RowStride (R : DistMatrix T) : Nat := R.rowStride

/-- Modelled from the spec: `R.SetLocal( iLocal, jLocal, alpha )`: the entry
of the local block at local offset `(iLocal, jLocal)` is written. -/
def SetLocal (R : DistMatrix T) (iLocal jLocal : Nat) (alpha : T) : Option (DistMatrix T) :=
  (R.localMatrix.Set iLocal jLocal alpha).map (fun M => { R with localMatrix := M })

end DistMatrix

/-- The sequential fill `Redheffer( Matrix<T>& R, int n )`. -/
def Redheffer {T : Type} [Zero T] [One T] (R : LocalMatrix T) (n : Nat) :
    Option (LocalMatrix T) :=
  let R := R.ResizeTo n n
  (List.range n).foldlM (fun R j =>
    (List.range n).foldlM (fun R i =>
      if j = 0 ∨ (j + 1) % (i + 1) = 0 then
        R.Set i j 1
      else
        R.Set i j 0) R) R

/-- The distributed fill `Redheffer( DistMatrix<T,U,V>& R, int n )`, as run by
one process. -/
def RedhefferDist {T : Type} [Zero T] [One T] (R : DistMatrix T) (n : Nat) :
    Option (DistMatrix T) :=
  let R := R.ResizeTo n n
  let localHeight := R.LocalHeight
  let localWidth := R.LocalWidth
  let colShift := R.ColShift
  let rowShift := R.RowShift
  let colStride := R.ColStride
  let rowStride := R.RowStride
  (List.range localWidth).foldlM (fun R jLocal =>
    let j := rowShift + jLocal * rowStride
    (List.range localHeight).foldlM (fun R iLocal =>
      let i := colShift + iLocal * colStride
      if j = 0 ∨ (j + 1) % (i + 1) = 0 then
        R.SetLocal iLocal jLocal 1
      else
        R.SetLocal iLocal jLocal 0) R) R

/-- The entry of the Redheffer matrix at global position `(i, j)` in the
words of the claim: `1` if `j = 0` or `i + 1` divides `j + 1`, else `0`. -/
def redhefferEntry (T : Type) [Zero T] [One T] (i j : Nat) : T :=
  if j = 0 ∨ (i + 1) ∣ (j + 1) then 1 else 0

/-- The part of a distributed matrix that writing a local entry leaves
unchanged: the local dimensions, the global dimensions, the shifts and the
strides. -/
def DistMatrix.frame {T : Type} (R : DistMatrix T) :
    (Nat × Nat) × (Nat × Nat) × (Nat × Nat) × (Nat × Nat) :=
  ((R.localMatrix.height, R.localMatrix.width), (R.height, R.width),
    (R.colShift, R.rowShift), (R.colStride, R.rowStride))

/-- The value written at global position `(i, j)` by both fills, with the
test of the source, `j==0 || ((j+1)%(i+1))==0`. -/
def redhefferValue (T : Type) [Zero T] [One T] (i j : Nat) : T :=
  if j = 0 ∨ (j + 1) % (i + 1) = 0 then 1 else 0

/-! ## Modular arithmetic of shifts and owners -/

theorem shift_add_align_mod (rank align r : Nat) (hrank : rank < r) (halign : align < r) :
    (Shift rank align r + align) % r = rank := by
  unfold Shift
  rw [Nat.mod_add_mod]
  have h : rank + r - align + align = rank + r := by omega
  rw [h, Nat.add_mod_right, Nat.mod_eq_of_lt hrank]

theorem shift_lt (rank align r : Nat) (hr : 0 < r) : Shift rank align r < r :=
  Nat.mod_lt _ hr

theorem shift_owner (x align r : Nat) (halign : align < r) :
    Shift ((x + align) % r) align r = x % r := by
  unfold Shift
  have hr : 0 < r := by omega
  have h1 : ((x + align) % r + r - align) % r = ((x + align) % r + (r - align)) % r := by
    congr 1; omega
  rw [h1, Nat.mod_add_mod]
  have h2 : x + align + (r - align) = x + r := by omega
  rw [h2, Nat.add_mod_right]

theorem shift_roundtrip (rank a b r : Nat) (hrank : rank < r) (ha : a < r) (hb : b < r) :
    (Shift ((Shift rank a r + b) % r) b r + a) % r = rank := by
  rw [shift_owner _ b r hb, Nat.mod_eq_of_lt (shift_lt rank a r (by omega))]
  exact shift_add_align_mod rank a r hrank ha

theorem procOfVCRank_add_mul (r a b : Nat) (ha : a < r) :
    procOfVCRank (squareGrid r) (a + b * r) = { gridRow := a, gridCol := b } := by
  have hr : 0 < r := by omega
  simp only [procOfVCRank, Grid.Height, squareGrid, Nat.add_mul_mod_self_right,
    Nat.mod_eq_of_lt ha, Nat.add_mul_div_right _ _ hr, Nat.div_eq_of_lt ha, Nat.zero_add]

theorem add_mul_lt_sq (r a b : Nat) (ha : a < r) (hb : b < r) : a + b * r < r * r := by
  have h : (b + 1) * r ≤ r * r := Nat.mul_le_mul_right r hb
  rw [Nat.add_mul, Nat.one_mul] at h
  omega

theorem sendRank_coords (r : Nat) (A B : Align) (i j : Nat) :
    MR_MC.sendRank (squareGrid r) A B ⟨i, j⟩
      = (Shift j A.rowAlign r + B.rowAlign) % r + (Shift i A.colAlign r + B.colAlign) % r * r :=
  rfl

theorem recvRank_coords (r : Nat) (A B : Align) (i j : Nat) :
    MR_MC.recvRank (squareGrid r) A B ⟨i, j⟩
      = (Shift j B.colAlign r + A.colAlign) % r + (Shift i B.rowAlign r + A.rowAlign) % r * r :=
  rfl

theorem recv_send_coords (r : Nat) (A B : Align) (i j : Nat) (hi : i < r) (hj : j < r)
    (hca : A.colAlign < r) (hra : A.rowAlign < r) (hcb : B.colAlign < r)
    (hrb : B.rowAlign < r) :
    MR_MC.recvRankOf (squareGrid r) A B (MR_MC.sendRank (squareGrid r) A B ⟨i, j⟩)
      = i + j * r := by
  have hr : 0 < r := by omega
  rw [sendRank_coords, MR_MC.recvRankOf, procOfVCRank_add_mul _ _ _ (Nat.mod_lt _ hr),
    recvRank_coords, shift_roundtrip i _ _ r hi hca hcb, shift_roundtrip j _ _ r hj hra hrb]

theorem send_recv_coords (r : Nat) (A B : Align) (i j : Nat) (hi : i < r) (hj : j < r)
    (hca : A.colAlign < r) (hra : A.rowAlign < r) (hcb : B.colAlign < r)
    (hrb : B.rowAlign < r) :
    MR_MC.sendRankOf (squareGrid r) A B (MR_MC.recvRank (squareGrid r) A B ⟨i, j⟩)
      = i + j * r := by
  have hr : 0 < r := by omega
  rw [recvRank_coords, MR_MC.sendRankOf, procOfVCRank_add_mul _ _ _ (Nat.mod_lt _ hr),
    sendRank_coords, shift_roundtrip i _ _ r hi hrb hra, shift_roundtrip j _ _ r hj hcb hca]

theorem vcRank_decompose (r q : Nat) (hq : q < r * r) :
    q % r < r ∧ q / r < r ∧ q % r + q / r * r = q := by
  have hr : 0 < r := by
    rcases Nat.eq_zero_or_pos r with h | h
    · subst h; simp at hq
    · exact h
  refine ⟨Nat.mod_lt _ hr, (Nat.div_lt_iff_lt_mul hr).2 hq, ?_⟩
  rw [Nat.mul_comm]; exact Nat.mod_add_div q r

theorem sendRankOf_lt (r : Nat) (A B : Align) (q : Nat) (hr : 0 < r) :
    MR_MC.sendRankOf (squareGrid r) A B q < r * r :=
  add_mul_lt_sq r _ _ (Nat.mod_lt _ hr) (Nat.mod_lt _ hr)

theorem recvRankOf_lt (r : Nat) (A B : Align) (q : Nat) (hr : 0 < r) :
    MR_MC.recvRankOf (squareGrid r) A B q < r * r :=
  add_mul_lt_sq r _ _ (Nat.mod_lt _ hr) (Nat.mod_lt _ hr)

theorem recvRankOf_sendRankOf (r : Nat) (A B : Align) (q : Nat) (hq : q < r * r)
    (hca : A.colAlign < r) (hra : A.rowAlign < r) (hcb : B.colAlign < r)
    (hrb : B.rowAlign < r) :
    MR_MC.recvRankOf (squareGrid r) A B (MR_MC.sendRankOf (squareGrid r) A B q) = q := by
  obtain ⟨h1, h2, h3⟩ := vcRank_decompose r q hq
  have h := recv_send_coords r A B (q % r) (q / r) h1 h2 hca hra hcb hrb
  rw [h3] at h
  exact h

theorem sendRankOf_recvRankOf (r : Nat) (A B : Align) (q : Nat) (hq : q < r * r)
    (hca : A.colAlign < r) (hra : A.rowAlign < r) (hcb : B.colAlign < r)
    (hrb : B.rowAlign < r) :
    MR_MC.sendRankOf (squareGrid r) A B (MR_MC.recvRankOf (squareGrid r) A B q) = q := by
  obtain ⟨h1, h2, h3⟩ := vcRank_decompose r q hq
  have h := send_recv_coords r A B (q % r) (q / r) h1 h2 hca hra hcb hrb
  rw [h3] at h
  exact h

theorem shift_add_modEq (rank a b c r : Nat) (hrank : rank < r) (ha : a < r) :
    (Shift rank a r + b) % r + (a + c) ≡ rank + (b + c) [MOD r] := by
  have h1 : Shift rank a r + a ≡ rank [MOD r] := by
    unfold Nat.ModEq
    rw [shift_add_align_mod rank a r hrank ha, Nat.mod_eq_of_lt hrank]
  have h2 : (Shift rank a r + b) % r ≡ Shift rank a r + b [MOD r] := Nat.mod_modEq _ _
  have h3 : (Shift rank a r + b) % r + (a + c) ≡ Shift rank a r + b + (a + c) [MOD r] :=
    h2.add_right _
  have h4 : Shift rank a r + b + (a + c) = Shift rank a r + a + (b + c) := by omega
  rw [h4] at h3
  exact h3.trans (h1.add_right _)

/-- Under `(ca + ra) mod r = (cb + rb) mod r` the row parts (and likewise the
column parts) of `sendRank` and `recvRank` agree. -/
theorem send_part_eq_recv_part (rank a b a' b' r : Nat) (hrank : rank < r) (ha : a < r)
    (ha' : a' < r) (hc : (b + a') % r = (b' + a) % r) :
    (Shift rank a r + b) % r = (Shift rank a' r + b') % r := by
  have hr : 0 < r := by omega
  have h1 := shift_add_modEq rank a b a' r hrank ha
  have h2 := shift_add_modEq rank a' b' a r hrank ha'
  have h3 : rank + (b + a') ≡ rank + (b' + a) [MOD r] := Nat.ModEq.add_left _ hc
  have h4 : (Shift rank a r + b) % r + (a + a') ≡ (Shift rank a' r + b') % r + (a + a') [MOD r] := by
    have h2' : (Shift rank a' r + b') % r + (a + a') ≡ rank + (b' + a) [MOD r] := by
      rw [Nat.add_comm a a']; exact h2
    exact (h1.trans h3).trans h2'.symm
  have h5 := Nat.ModEq.add_right_cancel' _ h4
  unfold Nat.ModEq at h5
  rwa [Nat.mod_eq_of_lt (Nat.mod_lt _ hr), Nat.mod_eq_of_lt (Nat.mod_lt _ hr)] at h5

theorem sendRank_eq_recvRank_of_cond (r : Nat) (A B : Align) (i j : Nat) (hi : i < r)
    (hj : j < r) (hca : A.colAlign < r) (hra : A.rowAlign < r) (hcb : B.colAlign < r)
    (hrb : B.rowAlign < r)
    (hc : (A.colAlign + A.rowAlign) % r = (B.colAlign + B.rowAlign) % r) :
    MR_MC.sendRank (squareGrid r) A B ⟨i, j⟩ = MR_MC.recvRank (squareGrid r) A B ⟨i, j⟩ := by
  rw [sendRank_coords, recvRank_coords,
    send_part_eq_recv_part j A.rowAlign B.rowAlign B.colAlign A.colAlign r hj hra hcb
      (by rw [Nat.add_comm B.rowAlign]; exact hc.symm),
    send_part_eq_recv_part i A.colAlign B.colAlign B.rowAlign A.rowAlign r hi hca hrb
      (by rw [Nat.add_comm A.rowAlign A.colAlign]; exact hc.symm)]

theorem cond_of_sendRank_eq_recvRank (r : Nat) (A B : Align)
    (hra : A.rowAlign < r) (hcb : B.colAlign < r)
    (h : MR_MC.sendRank (squareGrid r) A B ⟨0, 0⟩ = MR_MC.recvRank (squareGrid r) A B ⟨0, 0⟩) :
    (A.colAlign + A.rowAlign) % r = (B.colAlign + B.rowAlign) % r := by
  have hr : 0 < r := by omega
  rw [sendRank_coords, recvRank_coords] at h
  have h' := congrArg (fun n => n % r) h
  simp only [Nat.add_mul_mod_self_right, Nat.mod_mod] at h'
  have h1 := shift_add_modEq 0 A.rowAlign B.rowAlign B.colAlign r hr hra
  have h2 := shift_add_modEq 0 B.colAlign A.colAlign A.rowAlign r hr hcb
  rw [h', Nat.add_comm A.rowAlign B.colAlign] at h1
  have h3 := h2.symm.trans h1
  unfold Nat.ModEq at h3
  rw [Nat.zero_add, Nat.zero_add, Nat.add_comm B.rowAlign] at h3
  exact h3

/-- An entry owned by process `p` in the `[MC,MR]` source has its indices
congruent to the shifts of `p`. -/
theorem owns_source_shift (r : Nat) (A : Align) (p : Proc) (x y : Nat)
    (hca : A.colAlign < r) (hra : A.rowAlign < r)
    (hown : MC_MR.Owns (squareGrid r) A p x y = true) :
    x % r = MC_MR.ColShift (squareGrid r) A p ∧ y % r = MC_MR.RowShift (squareGrid r) A p := by
  simp only [MC_MR.Owns, MC_MR.RowOwner, MC_MR.ColOwner, MC_MR.ColStride, MC_MR.RowStride,
    MC_MR.ColRank, MC_MR.RowRank, Grid.MCSize, Grid.MRSize, squareGrid, Bool.and_eq_true,
    beq_iff_eq] at hown
  obtain ⟨h1, h2⟩ := hown
  simp only [MC_MR.ColShift, MC_MR.RowShift, MC_MR.ColStride, MC_MR.RowStride, MC_MR.ColRank,
    MC_MR.RowRank, Grid.MCSize, Grid.MRSize, squareGrid]
  rw [← h1, ← h2, shift_owner x _ r hca, shift_owner y _ r hra]
  exact ⟨rfl, rfl⟩

/-- C1: on a square `r x r` grid, the global entries `(x, y)` that the process
`p` at grid `(i, j)` owns in the `[MC,MR]` source are those with
`x mod r = (i - ca) mod r` and `y mod r = (j - ra) mod r`, and the owner of
each of them in the `[MR,MC]` target, the process at grid row
`(y + rb) mod r` and grid column `(x + cb) mod r`, has `VC` rank equal to the
`sendRank` that `p` computes. -/
theorem sendRank_names_target_owner (r : Nat) (A B : Align) (p : Proc) (x y : Nat)
    (hca : A.colAlign < r) (hra : A.rowAlign < r)
    (hi : p.gridRow < r) (hj : p.gridCol < r) :
    (MC_MR.Owns (squareGrid r) A p x y = true ↔
      x % r = MC_MR.ColShift (squareGrid r) A p ∧
      y % r = MC_MR.RowShift (squareGrid r) A p) ∧
    (MC_MR.Owns (squareGrid r) A p x y = true →
      MR_MC.Owner (squareGrid r) B x y
        = { gridRow := (y + B.rowAlign) % r, gridCol := (x + B.colAlign) % r } ∧
      VCRank (squareGrid r) (MR_MC.Owner (squareGrid r) B x y)
        = MR_MC.sendRank (squareGrid r) A B p ∧
      MR_MC.Owns (squareGrid r) B (MR_MC.Owner (squareGrid r) B x y) x y = true) := by
  refine ⟨⟨owns_source_shift r A p x y hca hra, ?_⟩, ?_⟩
  · rintro ⟨hx, hy⟩
    have h1 : (x + A.colAlign) % r = p.gridRow := by
      rw [← Nat.mod_add_mod, hx]
      exact shift_add_align_mod _ _ r hi hca
    have h2 : (y + A.rowAlign) % r = p.gridCol := by
      rw [← Nat.mod_add_mod, hy]
      exact shift_add_align_mod _ _ r hj hra
    simp only [MC_MR.Owns, MC_MR.RowOwner, MC_MR.ColOwner, MC_MR.ColStride, MC_MR.RowStride,
      MC_MR.ColRank, MC_MR.RowRank, Grid.MCSize, Grid.MRSize, squareGrid, Bool.and_eq_true,
      beq_iff_eq]
    exact ⟨h1, h2⟩
  · intro hown
    obtain ⟨hx, hy⟩ := owns_source_shift r A p x y hca hra hown
    refine ⟨rfl, ?_, ?_⟩
    · unfold MR_MC.sendRank
      rw [← hx, ← hy]
      simp only [VCRank, MR_MC.Owner, MR_MC.ColOwner, MR_MC.RowOwner, MR_MC.ColStride,
        MR_MC.RowStride, Grid.MCSize, Grid.MRSize, Grid.Height, squareGrid, Nat.mod_add_mod]
    · simp [MR_MC.Owns, MR_MC.Owner, MR_MC.ColRank, MR_MC.RowRank]

/-- Witness for C1: `r = 3`, source alignments `(1, 2)`, target alignments
`(2, 0)`, process at grid `(2, 1)` and its entry `(4, 5)`. -/
theorem sendRank_names_target_owner_witness :
    MC_MR.Owns (squareGrid 3) ⟨1, 2⟩ ⟨2, 1⟩ 4 5 = true ∧
    VCRank (squareGrid 3) (MR_MC.Owner (squareGrid 3) ⟨2, 0⟩ 4 5)
      = MR_MC.sendRank (squareGrid 3) ⟨1, 2⟩ ⟨2, 0⟩ ⟨2, 1⟩ :=
  ⟨by decide,
   ((sendRank_names_target_owner 3 ⟨1, 2⟩ ⟨2, 0⟩ ⟨2, 1⟩ 4 5 (by decide) (by decide)
      (by decide) (by decide)).2 (by decide)).2.1⟩

/-- C2: on a square `r x r` grid with all alignments in `[0, r)`, the maps
`sendRank` and `recvRank` on the rank set `{0, ..., r*r - 1}` stay inside the
rank set and are mutually inverse (the process `sendRank(p)` computes
`recvRank = p` and conversely), so each rank is the destination of exactly
one send. -/
theorem sendRank_recvRank_inverse_perms (r : Nat) (A B : Align)
    (hca : A.colAlign < r) (hra : A.rowAlign < r) (hcb : B.colAlign < r)
    (hrb : B.rowAlign < r) :
    (∀ q, q < r * r →
      MR_MC.sendRankOf (squareGrid r) A B q < r * r ∧
      MR_MC.recvRankOf (squareGrid r) A B q < r * r ∧
      MR_MC.recvRankOf (squareGrid r) A B (MR_MC.sendRankOf (squareGrid r) A B q) = q ∧
      MR_MC.sendRankOf (squareGrid r) A B (MR_MC.recvRankOf (squareGrid r) A B q) = q) ∧
    Set.BijOn (MR_MC.sendRankOf (squareGrid r) A B) (Set.Iio (r * r)) (Set.Iio (r * r)) ∧
    Set.BijOn (MR_MC.recvRankOf (squareGrid r) A B) (Set.Iio (r * r)) (Set.Iio (r * r)) ∧
    (∀ q, q < r * r → ∃! p, p < r * r ∧ MR_MC.sendRankOf (squareGrid r) A B p = q) := by
  have hr : 0 < r := by omega
  have hinv : Set.InvOn (MR_MC.recvRankOf (squareGrid r) A B)
      (MR_MC.sendRankOf (squareGrid r) A B) (Set.Iio (r * r)) (Set.Iio (r * r)) :=
    ⟨fun q hq => recvRankOf_sendRankOf r A B q hq hca hra hcb hrb,
     fun q hq => sendRankOf_recvRankOf r A B q hq hca hra hcb hrb⟩
  have hs : Set.MapsTo (MR_MC.sendRankOf (squareGrid r) A B) (Set.Iio (r * r))
      (Set.Iio (r * r)) := fun q _ => sendRankOf_lt r A B q hr
  have hv : Set.MapsTo (MR_MC.recvRankOf (squareGrid r) A B) (Set.Iio (r * r))
      (Set.Iio (r * r)) := fun q _ => recvRankOf_lt r A B q hr
  refine ⟨fun q hq => ⟨sendRankOf_lt r A B q hr, recvRankOf_lt r A B q hr,
    recvRankOf_sendRankOf r A B q hq hca hra hcb hrb,
    sendRankOf_recvRankOf r A B q hq hca hra hcb hrb⟩, hinv.bijOn hs hv,
    hinv.symm.bijOn hv hs, ?_⟩
  intro q hq
  refine ⟨MR_MC.recvRankOf (squareGrid r) A B q,
    ⟨recvRankOf_lt r A B q hr, sendRankOf_recvRankOf r A B q hq hca hra hcb hrb⟩, ?_⟩
  rintro p ⟨hp, hpq⟩
  rw [← hpq, recvRankOf_sendRankOf r A B p hp hca hra hcb hrb]

/-- Witness for C2: the `2 x 2` grid with source alignments `(0, 1)` and
target alignments `(1, 1)`. -/
theorem sendRank_recvRank_inverse_perms_witness :
    ((0 : Nat) < 2 ∧ (1 : Nat) < 2) ∧
    MR_MC.recvRankOf (squareGrid 2) ⟨0, 1⟩ ⟨1, 1⟩
      (MR_MC.sendRankOf (squareGrid 2) ⟨0, 1⟩ ⟨1, 1⟩ 3) = 3 :=
  ⟨by decide,
   ((sendRank_recvRank_inverse_perms 2 ⟨0, 1⟩ ⟨1, 1⟩ (by decide) (by decide) (by decide)
      (by decide)).1 3 (by decide)).2.2.1⟩

/-- C3 (as stated, refuted): on the `2 x 2` grid with source alignments
`(0, 0)` and target alignments `(1, 0)`, process `0` computes `sendRank = 2`
while process `2` computes `sendRank = 3`, so `sendRank` is not an involution
for all alignments. -/
theorem sendRank_not_involution :
    ¬ (∀ (r : Nat) (A B : Align) (X : Nat), A.colAlign < r → A.rowAlign < r →
        B.colAlign < r → B.rowAlign < r → X < r * r →
        MR_MC.sendRankOf (squareGrid r) A B (MR_MC.sendRankOf (squareGrid r) A B X) = X) := by
  intro h
  have h0 := h 2 ⟨0, 0⟩ ⟨1, 0⟩ 0 (by decide) (by decide) (by decide) (by decide) (by decide)
  revert h0
  decide

/-- C3 (amended): on a square `r x r` grid with all alignments in `[0, r)`,
`sendRank` is an involution on the rank set exactly when
`(ca + ra) mod r = (cb + rb) mod r`. -/
theorem sendRank_involution_iff (r : Nat) (A B : Align)
    (hca : A.colAlign < r) (hra : A.rowAlign < r) (hcb : B.colAlign < r)
    (hrb : B.rowAlign < r) :
    (∀ X, X < r * r →
      MR_MC.sendRankOf (squareGrid r) A B (MR_MC.sendRankOf (squareGrid r) A B X) = X) ↔
    (A.colAlign + A.rowAlign) % r = (B.colAlign + B.rowAlign) % r := by
  have hr : 0 < r := by omega
  constructor
  · intro h
    have h0 : (0 : Nat) < r * r := Nat.mul_pos hr hr
    have hX := h _ (recvRankOf_lt r A B 0 hr)
    rw [sendRankOf_recvRankOf r A B 0 h0 hca hra hcb hrb] at hX
    apply cond_of_sendRank_eq_recvRank r A B hra hcb
    have hp : procOfVCRank (squareGrid r) 0 = ⟨0, 0⟩ := by
      simp [procOfVCRank, Grid.Height, squareGrid]
    simpa only [MR_MC.sendRankOf, MR_MC.recvRankOf, hp] using hX
  · intro hc X hX
    have hY := sendRankOf_lt r A B X hr
    obtain ⟨h1, h2, _⟩ := vcRank_decompose r _ hY
    have hsr : MR_MC.sendRankOf (squareGrid r) A B (MR_MC.sendRankOf (squareGrid r) A B X)
        = MR_MC.recvRankOf (squareGrid r) A B (MR_MC.sendRankOf (squareGrid r) A B X) :=
      sendRank_eq_recvRank_of_cond r A B _ _ h1 h2 hca hra hcb hrb hc
    rw [hsr]
    exact recvRankOf_sendRankOf r A B X hX hca hra hcb hrb

/-- Witness for the amended C3: the `3 x 3` grid with source alignments
`(1, 2)` and target alignments `(2, 1)`, where `sendRank` is an involution. -/
theorem sendRank_involution_iff_witness :
    (1 + 2) % 3 = (2 + 1) % 3 ∧
    MR_MC.sendRankOf (squareGrid 3) ⟨1, 2⟩ ⟨2, 1⟩
      (MR_MC.sendRankOf (squareGrid 3) ⟨1, 2⟩ ⟨2, 1⟩ 5) = 5 :=
  ⟨by decide,
   (sendRank_involution_iff 3 ⟨1, 2⟩ ⟨2, 1⟩ (by decide) (by decide) (by decide)
      (by decide)).2 (by decide) 5 (by decide)⟩

/-- C4: `[MR,MC] = [MC,MR]` calls `copy::Exchange` (with the computed
`sendRank` and `recvRank`) if and only if `grid.Height() == grid.Width()`,
calls `copy::TransposeDist` if and only if the grid is not square, and in
either case calls exactly one primitive and nothing else. -/
theorem assign_MC_MR_branches (g : Grid) (A B : Align) (p : Proc) :
    (MR_MC.assign_MC_MR g A B p
        = [Stmt.copy (Prim.Exchange (MR_MC.sendRank g A B p) (MR_MC.recvRank g A B p))]
      ↔ g.Height = g.Width) ∧
    (MR_MC.assign_MC_MR g A B p = [Stmt.copy Prim.TransposeDist] ↔ g.Height ≠ g.Width) ∧
    (MR_MC.assign_MC_MR g A B p
        = [Stmt.copy (Prim.Exchange (MR_MC.sendRank g A B p) (MR_MC.recvRank g A B p))] ∨
      MR_MC.assign_MC_MR g A B p = [Stmt.copy Prim.TransposeDist]) ∧
    (prims (MR_MC.assign_MC_MR g A B p)).length = 1 ∧
    (MR_MC.assign_MC_MR g A B p).length = 1 ∧
    MR_MC.assign g A B p (Dist.MC, Dist.MR) = some (MR_MC.assign_MC_MR g A B p) := by
  unfold MR_MC.assign_MC_MR
  by_cases h : g.Height = g.Width
  · simp [h, prims, MR_MC.assign, MR_MC.assign_MC_MR]
  · simp [h, prims, MR_MC.assign, MR_MC.assign_MC_MR]

theorem assign_MC_MR_cases (g : Grid) (A B : Align) (p : Proc) :
    ∃ q, MR_MC.assign_MC_MR g A B p = [Stmt.copy q] ∧ q.isFilter = false := by
  unfold MR_MC.assign_MC_MR
  split
  · exact ⟨_, rfl, rfl⟩
  · exact ⟨_, rfl, rfl⟩

/-- C5 (as stated, refuted): the `[MC,STAR]` source is converted in three
hops through two intermediate matrices, `[VC,STAR]` and `[VR,STAR]`, not in
two hops through one. -/
theorem multiHop_not_always_two_hops :
    ¬ (∀ (g : Grid) (A B : Align) (p : Proc) (src : DistPair) (body : List Stmt),
        src ∈ multiHopSources → MR_MC.assign g A B p src = some body →
        hops body = 2 ∧ (intermediates body).length = 1) := by
  intro h
  have h0 := h ⟨1, 1⟩ ⟨0, 0⟩ ⟨0, 0⟩ ⟨0, 0⟩ (Dist.MC, Dist.STAR) MR_MC.assign_MC_STAR
    (by decide) rfl
  revert h0
  decide

/-- C5 (amended): the sources `[MD,STAR]`, `[STAR,MD]`, `[VC,STAR]` and
`[STAR,VR]` are converted in exactly two hops through exactly one
intermediate matrix; the sources `[MC,STAR]` and `[STAR,MR]` are converted in
exactly three hops through exactly two intermediate matrices (`[VC,STAR]`
then `[VR,STAR]`, respectively `[STAR,VR]` then `[STAR,VC]`); every multi-hop
body calls no primitive directly, and every other source with an overload is
converted by a single primitive call with no hop and no intermediate. -/
theorem multiHop_hop_counts (g : Grid) (A B : Align) (p : Proc) (src : DistPair)
    (body : List Stmt) (hbody : MR_MC.assign g A B p src = some body) :
    (src ∈ twoHopSources →
      hops body = 2 ∧ (intermediates body).length = 1 ∧ prims body = []) ∧
    (src ∈ threeHopSources →
      hops body = 3 ∧ (intermediates body).length = 2 ∧ prims body = []) ∧
    (src = (Dist.MC, Dist.STAR) →
      intermediates body = [(Dist.VC, Dist.STAR), (Dist.VR, Dist.STAR)]) ∧
    (src = (Dist.STAR, Dist.MR) →
      intermediates body = [(Dist.STAR, Dist.VR), (Dist.STAR, Dist.VC)]) ∧
    (src ∈ multiHopSources ↔ src ∈ twoHopSources ∨ src ∈ threeHopSources) ∧
    (src ∉ multiHopSources →
      hops body = 0 ∧ intermediates body = [] ∧ (prims body).length = 1) := by
  obtain ⟨q, hq, -⟩ := assign_MC_MR_cases g A B p
  obtain ⟨c, r⟩ := src
  cases c <;> cases r <;> simp only [MR_MC.assign] at hbody <;> cases hbody <;>
    first
    | exact ⟨by decide, by decide, by decide, by decide, by decide, by decide⟩
    | (rw [hq]; simp [hops, intermediates, prims, Stmt.isHop, multiHopSources,
        twoHopSources, threeHopSources])

/-- Witness for the amended C5: the `[VC,STAR]` source on a `2 x 3` grid. -/
theorem multiHop_hop_counts_witness :
    MR_MC.assign ⟨2, 3⟩ ⟨0, 1⟩ ⟨1, 0⟩ ⟨1, 2⟩ (Dist.VC, Dist.STAR)
      = some MR_MC.assign_VC_STAR ∧
    hops MR_MC.assign_VC_STAR = 2 ∧ (intermediates MR_MC.assign_VC_STAR).length = 1 ∧
      prims MR_MC.assign_VC_STAR = [] :=
  ⟨rfl, (multiHop_hop_counts ⟨2, 3⟩ ⟨0, 1⟩ ⟨1, 0⟩ ⟨1, 2⟩ (Dist.VC, Dist.STAR)
    MR_MC.assign_VC_STAR rfl).1 (by decide)⟩

/-- C6 (as stated, refuted): the `[STAR,VC]` source is replicated along a
dimension, yet its assignment into `[MR,MC]` calls
`copy::RowAllToAllPromote`, a communicating primitive, not a filter. -/
theorem replicated_source_not_always_filter :
    ¬ (∀ (g : Grid) (A B : Align) (p : Proc) (src : DistPair) (body : List Stmt),
        replicatedAlongADim src = true → MR_MC.assign g A B p src = some body →
        isLocalFilter body = true ∧ commCalls body = 0) := by
  intro h
  have h0 := h ⟨1, 1⟩ ⟨0, 0⟩ ⟨0, 0⟩ ⟨0, 0⟩ (Dist.STAR, Dist.VC) MR_MC.assign_STAR_VC
    (by decide) rfl
  revert h0
  decide

/-- C6 (amended): among the sources replicated along a dimension (column or
row scheme `STAR`), the assignment into `[MR,MC]` is a purely local filter
(a single call, to a filter primitive, with zero communicating calls and no
hop) exactly for `[MR,STAR]`, `[STAR,MC]` and `[STAR,STAR]`. -/
theorem replicated_source_filter_iff (g : Grid) (A B : Align) (p : Proc) (src : DistPair)
    (body : List Stmt) (hrep : replicatedAlongADim src = true)
    (hbody : MR_MC.assign g A B p src = some body) :
    (isLocalFilter body = true ∧ commCalls body = 0 ∧ hops body = 0) ↔
      src ∈ subsumingSources := by
  obtain ⟨c, r⟩ := src
  cases c <;> cases r <;> simp only [MR_MC.assign] at hbody <;> cases hbody <;>
    first
    | decide
    | exact absurd hrep (by decide)

/-- Witness for the amended C6: the `[STAR,MC]` source on a `2 x 3` grid. -/
theorem replicated_source_filter_iff_witness :
    (replicatedAlongADim (Dist.STAR, Dist.MC) = true ∧
      MR_MC.assign ⟨2, 3⟩ ⟨0, 1⟩ ⟨1, 0⟩ ⟨1, 2⟩ (Dist.STAR, Dist.MC)
        = some MR_MC.assign_STAR_MC) ∧
    isLocalFilter MR_MC.assign_STAR_MC = true ∧ commCalls MR_MC.assign_STAR_MC = 0 ∧
      hops MR_MC.assign_STAR_MC = 0 :=
  ⟨⟨rfl, rfl⟩, (replicated_source_filter_iff ⟨2, 3⟩ ⟨0, 1⟩ ⟨1, 0⟩ ⟨1, 2⟩ (Dist.STAR, Dist.MC)
    MR_MC.assign_STAR_MC rfl rfl).2 (by decide)⟩

/-- C7: the sources `[MR,STAR]`, `[STAR,MC]` and `[STAR,STAR]` are assigned
into `[MR,MC]` by exactly one call, to `copy::RowFilter`, `copy::ColFilter`
and `copy::Filter` respectively, with no intermediate matrix and no hop; each
called primitive is a filter, none is a communicating primitive (Exchange,
AllToAllPromote, Scatter, TransposeDist), and the count of communicating
calls is zero. -/
theorem subsuming_sources_single_filter (g : Grid) (A B : Align) (p : Proc) :
    IsSingleCall (MR_MC.assign g A B p (Dist.MR, Dist.STAR)) Prim.RowFilter ∧
    IsSingleCall (MR_MC.assign g A B p (Dist.STAR, Dist.MC)) Prim.ColFilter ∧
    IsSingleCall (MR_MC.assign g A B p (Dist.STAR, Dist.STAR)) Prim.Filter ∧
    (∀ src ∈ subsumingSources, ∀ body, MR_MC.assign g A B p src = some body →
      body.length = 1 ∧ isLocalFilter body = true ∧
      (∀ q ∈ prims body, q.isFilter = true ∧ q.communicates = false) ∧
      commCalls body = 0) := by
  refine ⟨⟨_, rfl, rfl, rfl, rfl, rfl⟩, ⟨_, rfl, rfl, rfl, rfl, rfl⟩,
    ⟨_, rfl, rfl, rfl, rfl, rfl⟩, ?_⟩
  intro src hsrc body hbody
  simp only [subsumingSources, List.mem_cons, List.mem_singleton, List.not_mem_nil,
    or_false] at hsrc
  rcases hsrc with rfl | rfl | rfl <;> cases hbody <;> decide

/-- C8: the `[CIRC,CIRC]` source is assigned into `[MR,MC]` by exactly one
`copy::Scatter` call, the `[STAR,VC]` source by exactly one
`copy::RowAllToAllPromote` call and the `[VR,STAR]` source by exactly one
`copy::ColAllToAllPromote` call; in all three cases no intermediate matrix is
created, there is no hop and no other primitive is called. -/
theorem single_primitive_sources (g : Grid) (A B : Align) (p : Proc) :
    IsSingleCall (MR_MC.assign g A B p (Dist.CIRC, Dist.CIRC)) Prim.Scatter ∧
    IsSingleCall (MR_MC.assign g A B p (Dist.STAR, Dist.VC)) Prim.RowAllToAllPromote ∧
    IsSingleCall (MR_MC.assign g A B p (Dist.VR, Dist.STAR)) Prim.ColAllToAllPromote :=
  ⟨⟨_, rfl, rfl, rfl, rfl, rfl⟩, ⟨_, rfl, rfl, rfl, rfl, rfl⟩, ⟨_, rfl, rfl, rfl, rfl, rfl⟩⟩

/-- C9: on a `Pr x Pc` grid an `[MR,MC]` matrix has `ColStride() = Pc`,
`RowStride() = Pr`, `CrossSize() = RedundantSize() = 1` and
`ColStride()*RowStride() = DistSize() = Pr*Pc`; and every global entry
`(x, y)` is owned by exactly one process of the grid, the one at grid column
`(colAlign + x) mod ColStride()` and grid row `(rowAlign + y) mod RowStride()`. -/
theorem MR_MC_strides_and_unique_owner (Pr Pc : Nat) (B : Align) (x y : Nat)
    (hPr : 0 < Pr) (hPc : 0 < Pc) :
    (Grid.mk Pr Pc).MCSize = Pr ∧ (Grid.mk Pr Pc).MRSize = Pc ∧
    (Grid.mk Pr Pc).VRSize = Pr * Pc ∧
    MR_MC.ColStride ⟨Pr, Pc⟩ = Pc ∧ MR_MC.RowStride ⟨Pr, Pc⟩ = Pr ∧
    MR_MC.CrossSize ⟨Pr, Pc⟩ = 1 ∧ MR_MC.RedundantSize ⟨Pr, Pc⟩ = 1 ∧
    MR_MC.ColStride ⟨Pr, Pc⟩ * MR_MC.RowStride ⟨Pr, Pc⟩ = MR_MC.DistSize ⟨Pr, Pc⟩ ∧
    MR_MC.DistSize ⟨Pr, Pc⟩ = Pr * Pc ∧
    MR_MC.RowOwner ⟨Pr, Pc⟩ B x = (B.colAlign + x) % MR_MC.ColStride ⟨Pr, Pc⟩ ∧
    MR_MC.ColOwner ⟨Pr, Pc⟩ B y = (B.rowAlign + y) % MR_MC.RowStride ⟨Pr, Pc⟩ ∧
    (∃! p : Proc, p.gridRow < Pr ∧ p.gridCol < Pc ∧
      MR_MC.Owns ⟨Pr, Pc⟩ B p x y = true) := by
  refine ⟨rfl, rfl, rfl, rfl, rfl, rfl, rfl, Nat.mul_comm _ _, rfl, ?_, ?_, ?_⟩
  · simp only [MR_MC.RowOwner, Nat.add_comm]
  · simp only [MR_MC.ColOwner, Nat.add_comm]
  · refine ⟨MR_MC.Owner ⟨Pr, Pc⟩ B x y, ⟨Nat.mod_lt _ hPr, Nat.mod_lt _ hPc, ?_⟩, ?_⟩
    · simp [MR_MC.Owns, MR_MC.Owner, MR_MC.ColRank, MR_MC.RowRank]
    · rintro ⟨i, j⟩ ⟨-, -, hown⟩
      simp only [MR_MC.Owns, MR_MC.ColRank, MR_MC.RowRank, Bool.and_eq_true,
        beq_iff_eq] at hown
      simp only [MR_MC.Owner, hown.1, hown.2]

/-- Witness for C9: the `2 x 3` grid, alignments `(2, 1)` and entry `(4, 7)`. -/
theorem MR_MC_strides_and_unique_owner_witness :
    ((0 : Nat) < 2 ∧ (0 : Nat) < 3) ∧
    MR_MC.ColStride ⟨2, 3⟩ * MR_MC.RowStride ⟨2, 3⟩ = MR_MC.DistSize ⟨2, 3⟩ ∧
    (∃! p : Proc, p.gridRow < 2 ∧ p.gridCol < 3 ∧
      MR_MC.Owns ⟨2, 3⟩ ⟨2, 1⟩ p 4 7 = true) :=
  ⟨by decide,
   (MR_MC_strides_and_unique_owner 2 3 ⟨2, 1⟩ 4 7 (by decide) (by decide)).2.2.2.2.2.2.2.1,
   (MR_MC_strides_and_unique_owner 2 3 ⟨2, 1⟩ 4 7 (by decide)
      (by decide)).2.2.2.2.2.2.2.2.2.2.2⟩

/-! ## The panel step of `ApplyPackedReflectorsRLVB` -/

namespace RLVB

variable {m h k : Nat}

theorem finRange_drop_cons (d : Nat) (hd : d < k) :
    (List.finRange k).drop d = ⟨d, hd⟩ :: (List.finRange k).drop (d + 1) := by
  rw [List.drop_eq_getElem_cons (by simpa using hd)]
  simp

theorem finRange_drop_all : (List.finRange k).drop k = [] := by
  simp

theorem sum_ite_suffix_split (d : Nat) (hd : d < k) (f : Fin k → ℚ) :
    (∑ i : Fin k, if d ≤ i.val then f i else 0)
      = f ⟨d, hd⟩ + ∑ i : Fin k, if d + 1 ≤ i.val then f i else 0 := by
  have h1 : ∀ i : Fin k, (if d ≤ i.val then f i else 0)
      = (if i = ⟨d, hd⟩ then f i else 0) + (if d + 1 ≤ i.val then f i else 0) := by
    intro i
    by_cases hi : i = ⟨d, hd⟩
    · subst hi; simp
    · have hne : i.val ≠ d := fun hv => hi (Fin.ext hv)
      by_cases hle : d ≤ i.val
      · have : d + 1 ≤ i.val := by omega
        simp [hi, hle, this]
      · have : ¬ d + 1 ≤ i.val := by omega
        simp [hi, hle, this]
  rw [Finset.sum_congr rfl (fun i _ => h1 i), Finset.sum_add_distrib]
  simp

theorem mul_householder (C : Matrix (Fin m) (Fin h) ℚ) (U : Matrix (Fin h) (Fin k) ℚ)
    (j : Fin k) (r : Fin m) (s : Fin h) :
    (C * householder U j) r s = C r s - tau U j * (∑ t, C r t * U t j) * U s j := by
  simp only [Matrix.mul_apply, householder, mul_sub, Finset.sum_sub_distrib]
  congr 1
  · simp
  · rw [Finset.mul_sum, Finset.sum_mul]
    exact Finset.sum_congr rfl (fun t _ => by ring)

/-- The columns not yet reached by the substitution are unchanged. -/
theorem trsm_untouched (L : Matrix (Fin k) (Fin k) ℚ) (Z0 : Matrix (Fin m) (Fin k) ℚ) :
    ∀ n d, d + n = k → ∀ r (c : Fin k), c.val < d →
      ((List.finRange k).drop d).foldr (trsmColumn L) Z0 r c = Z0 r c := by
  intro n
  induction n with
  | zero =>
    intro d hd r c _
    have : d = k := by omega
    subst this
    rw [finRange_drop_all, List.foldr_nil]
  | succ n ih =>
    intro d hd r c hc
    have hdk : d < k := by omega
    rw [finRange_drop_cons d hdk, List.foldr_cons]
    have hne : c ≠ ⟨d, hdk⟩ := fun hv => by
      have := congrArg Fin.val hv
      simp at this
      omega
    simp only [trsmColumn, hne, if_false]
    exact ih (d + 1) (by omega) r c (by omega)

/-- The inner product of a row of the partially reflected matrix with the
next reflector vector is the numerator of the next substitution step. -/
theorem reflected_row_dot (U : Matrix (Fin h) (Fin k) ℚ) (A : Matrix (Fin m) (Fin h) ℚ)
    (L : Matrix (Fin k) (Fin k) ℚ) (Z0 X : Matrix (Fin m) (Fin k) ℚ)
    (C : Matrix (Fin m) (Fin h) ℚ)
    (hZ : ∀ r c, Z0 r c = ∑ t, A r t * U t c)
    (hL : ∀ i j : Fin k, j < i → L i j = ∑ l, U l i * U l j)
    (d : Nat) (hd : d < k) (r : Fin m)
    (hC : ∀ s, C r s = A r s - ∑ i : Fin k, if d + 1 ≤ i.val then X r i * U s i else 0) :
    ∑ t, C r t * U t ⟨d, hd⟩
      = Z0 r ⟨d, hd⟩ - ∑ i : Fin k, if (⟨d, hd⟩ : Fin k) < i then X r i * L i ⟨d, hd⟩ else 0 := by
  have h1 : ∀ t, C r t * U t ⟨d, hd⟩
      = A r t * U t ⟨d, hd⟩
        - ∑ i : Fin k, if d + 1 ≤ i.val then X r i * (U t i * U t ⟨d, hd⟩) else 0 := by
    intro t
    rw [hC t, sub_mul, Finset.sum_mul]
    congr 1
    refine Finset.sum_congr rfl (fun i _ => ?_)
    split
    · ring
    · ring
  rw [Finset.sum_congr rfl (fun t _ => h1 t), Finset.sum_sub_distrib, Finset.sum_comm, hZ]
  congr 1
  refine Finset.sum_congr rfl (fun i _ => ?_)
  by_cases hi : d + 1 ≤ i.val
  · have hlt : (⟨d, hd⟩ : Fin k) < i := by
      rw [Fin.lt_def]; exact hi
    simp only [hi, hlt, if_true]
    rw [hL i ⟨d, hd⟩ hlt, Finset.mul_sum]
  · have hlt : ¬ (⟨d, hd⟩ : Fin k) < i := by
      rw [Fin.lt_def]; exact hi
    simp [hi, hlt]

/-- After the columns `d, ..., k-1` have been processed, the reflected matrix
`A * H_{k-1} * ... * H_d` equals `A` minus the processed columns of the
substitution times the corresponding rows of `U^T`. -/
theorem reflectors_suffix (U : Matrix (Fin h) (Fin k) ℚ) (A : Matrix (Fin m) (Fin h) ℚ)
    (L : Matrix (Fin k) (Fin k) ℚ) (Z0 : Matrix (Fin m) (Fin k) ℚ)
    (hZ : ∀ r c, Z0 r c = ∑ t, A r t * U t c)
    (hL : ∀ i j : Fin k, j < i → L i j = ∑ l, U l i * U l j)
    (hD : ∀ j, L j j = (∑ l, U l j * U l j) / 2) :
    ∀ n d, d + n = k → ∀ r s,
      ((List.finRange k).drop d).foldr (fun j C => C * householder U j) A r s
        = A r s - ∑ i : Fin k, if d ≤ i.val then
            ((List.finRange k).drop d).foldr (trsmColumn L) Z0 r i * U s i else 0 := by
  intro n
  induction n with
  | zero =>
    intro d hd r s
    have : d = k := by omega
    subst this
    rw [finRange_drop_all, List.foldr_nil, List.foldr_nil]
    have h0 : ∀ i : Fin d, (if d ≤ i.val then Z0 r i * U s i else 0) = 0 := by
      intro i
      have : ¬ d ≤ i.val := by have := i.isLt; omega
      simp [this]
    rw [Finset.sum_congr rfl (fun i _ => h0 i)]
    simp
  | succ n ih =>
    intro d hd r s
    have hdk : d < k := by omega
    have hIH := ih (d + 1) (by omega)
    have hun := trsm_untouched L Z0 n (d + 1) (by omega) r ⟨d, hdk⟩ (by simp)
    rw [finRange_drop_cons d hdk, List.foldr_cons, List.foldr_cons, mul_householder,
      sum_ite_suffix_split d hdk,
      reflected_row_dot U A L Z0 _ _ hZ hL d hdk r (fun s => hIH r s), hIH r s]
    have hrest : ∀ i : Fin k,
        (if d + 1 ≤ i.val then
          trsmColumn L ⟨d, hdk⟩ (((List.finRange k).drop (d + 1)).foldr (trsmColumn L) Z0) r i
            * U s i else 0)
        = (if d + 1 ≤ i.val then
          ((List.finRange k).drop (d + 1)).foldr (trsmColumn L) Z0 r i * U s i else 0) := by
      intro i
      by_cases hi : d + 1 ≤ i.val
      · have hne : i ≠ ⟨d, hdk⟩ := fun hv => by
          have := congrArg Fin.val hv
          simp at this
          omega
        simp only [hi, if_true, trsmColumn, hne, if_false]
      · simp [hi]
    rw [Finset.sum_congr rfl (fun i _ => hrest i)]
    have hcol : trsmColumn L ⟨d, hdk⟩
        (((List.finRange k).drop (d + 1)).foldr (trsmColumn L) Z0) r ⟨d, hdk⟩
        = tau U ⟨d, hdk⟩ * (Z0 r ⟨d, hdk⟩ - ∑ i : Fin k, if (⟨d, hdk⟩ : Fin k) < i then
            ((List.finRange k).drop (d + 1)).foldr (trsmColumn L) Z0 r i * L i ⟨d, hdk⟩
            else 0) := by
      simp only [trsmColumn, if_true, hun, tau, hD]
      rw [div_div_eq_mul_div]
      ring
    rw [hcol]
    ring

/-- Each processed column of the substitution satisfies its equation of
`X L = Z0`. -/
theorem trsm_solves (L : Matrix (Fin k) (Fin k) ℚ) (Z0 : Matrix (Fin m) (Fin k) ℚ)
    (hne : ∀ j, L j j ≠ 0) :
    ∀ n d, d + n = k → ∀ r (j : Fin k), d ≤ j.val →
      ((List.finRange k).drop d).foldr (trsmColumn L) Z0 r j * L j j
        + (∑ i : Fin k, if j < i then
            ((List.finRange k).drop d).foldr (trsmColumn L) Z0 r i * L i j else 0)
        = Z0 r j := by
  intro n
  induction n with
  | zero =>
    intro d hd r j hj
    have := j.isLt
    omega
  | succ n ih =>
    intro d hd r j hj
    have hdk : d < k := by omega
    have hun := trsm_untouched L Z0 n (d + 1) (by omega) r ⟨d, hdk⟩ (by simp)
    rw [finRange_drop_cons d hdk, List.foldr_cons]
    have hrest : ∀ i : Fin k,
        (if j < i then
          trsmColumn L ⟨d, hdk⟩ (((List.finRange k).drop (d + 1)).foldr (trsmColumn L) Z0) r i
            * L i j else 0)
        = (if j < i then
          ((List.finRange k).drop (d + 1)).foldr (trsmColumn L) Z0 r i * L i j else 0) := by
      intro i
      by_cases hi : j < i
      · have hne' : i ≠ ⟨d, hdk⟩ := fun hv => by
          rw [Fin.lt_def] at hi
          have := congrArg Fin.val hv
          simp at this
          omega
        simp only [hi, if_true, trsmColumn, hne', if_false]
      · simp [hi]
    rw [Finset.sum_congr rfl (fun i _ => hrest i)]
    by_cases hjd : j = ⟨d, hdk⟩
    · subst hjd
      simp only [trsmColumn, if_true, hun]
      rw [div_mul_cancel₀ _ (hne _)]
      ring
    · have hlt : d + 1 ≤ j.val := by
        have : j.val ≠ d := fun hv => hjd (Fin.ext hv)
        omega
      simp only [trsmColumn, hjd, if_false]
      exact ih (d + 1) (by omega) r j hlt

/-- The substitution solves `X L = alpha B` for a lower triangular `L` with
non-zero diagonal. -/
theorem TrsmRLN_mul (alpha : ℚ) (L : Matrix (Fin k) (Fin k) ℚ) (B : Matrix (Fin m) (Fin k) ℚ)
    (hne : ∀ j, L j j ≠ 0) (hup : ∀ i j : Fin k, i < j → L i j = 0) :
    TrsmRLN alpha L B * L = alpha • B := by
  ext r j
  have hs := trsm_solves L (fun r c => alpha * B r c) hne k 0 (by omega) r j (Nat.zero_le _)
  rw [List.drop_zero] at hs
  have hs' : alpha * B r j = _ := hs.symm
  rw [Matrix.mul_apply, Matrix.smul_apply, smul_eq_mul, hs']
  unfold TrsmRLN
  rw [← Finset.add_sum_erase Finset.univ _ (Finset.mem_univ j)]
  congr 1
  rw [← Finset.sum_erase_add Finset.univ
    (fun i => if j < i then
      (List.finRange k).foldr (trsmColumn L) (fun r c => alpha * B r c) r i * L i j else 0)
    (Finset.mem_univ j)]
  simp only [lt_irrefl, if_false, add_zero]
  refine Finset.sum_congr rfl (fun i hi => ?_)
  have hij : i ≠ j := Finset.ne_of_mem_erase hi
  by_cases hlt : j < i
  · simp [hlt]
  · have : i < j := lt_of_le_of_ne (not_lt.mp hlt) hij
    simp [hlt, hup i j this]

theorem SInv_diag (offset : Int) (HPan : Matrix (Fin h) (Fin k) ℚ) (j : Fin k) :
    SInv offset HPan j j
      = (∑ l, HPanCopy offset HPan l j * HPanCopy offset HPan l j) / 2 := by
  simp [SInv, HalveMainDiagonal, SyrkLT, Zeros]

theorem SInv_lower (offset : Int) (HPan : Matrix (Fin h) (Fin k) ℚ) (i j : Fin k)
    (hij : j < i) :
    SInv offset HPan i j = ∑ l, HPanCopy offset HPan l i * HPanCopy offset HPan l j := by
  simp [SInv, HalveMainDiagonal, SyrkLT, Zeros, ne_of_gt hij, le_of_lt hij]

theorem SInv_upper (offset : Int) (HPan : Matrix (Fin h) (Fin k) ℚ) (i j : Fin k)
    (hij : i < j) : SInv offset HPan i j = 0 := by
  simp [SInv, HalveMainDiagonal, SyrkLT, Zeros, ne_of_lt hij, not_le_of_lt hij]

theorem HPanCopy_upper (offset : Int) (HPan : Matrix (Fin h) (Fin k) ℚ) (i : Fin h)
    (j : Fin k) (hij : (j.val : Int) - (i.val : Int) > offset) :
    HPanCopy offset HPan i j = 0 := by
  simp [HPanCopy, SetDiagonalToOne, MakeTrapezoidal, hij, ne_of_gt hij]

theorem HPanCopy_diag (offset : Int) (HPan : Matrix (Fin h) (Fin k) ℚ) (i : Fin h)
    (j : Fin k) (hij : (j.val : Int) - (i.val : Int) = offset) :
    HPanCopy offset HPan i j = 1 := by
  simp [HPanCopy, SetDiagonalToOne, hij]

/-- Within the panel width every column of the panel meets the diagonal of
the given offset. -/
theorem diag_row_exists (offset : Int) (w : Nat) (hoff : offset ≤ 0)
    (hk : k = HPanWidth w h offset) (j : Fin k) :
    ∃ i : Fin h, (j.val : Int) - (i.val : Int) = offset := by
  have hj := j.isLt
  have hk' : k ≤ (max ((h : Int) + offset) 0).toNat := by
    rw [hk]; exact Nat.min_le_right _ _
  have hlt : (j.val : Int) - offset < h := by omega
  refine ⟨⟨((j.val : Int) - offset).toNat, by omega⟩, ?_⟩
  simp only
  omega

theorem gram_diag_pos (offset : Int) (w : Nat) (HPan : Matrix (Fin h) (Fin k) ℚ)
    (hoff : offset ≤ 0) (hk : k = HPanWidth w h offset) (j : Fin k) :
    0 < ∑ l, HPanCopy offset HPan l j * HPanCopy offset HPan l j := by
  obtain ⟨i, hi⟩ := diag_row_exists offset w hoff hk j
  have h1 : HPanCopy offset HPan i j * HPanCopy offset HPan i j
      ≤ ∑ l, HPanCopy offset HPan l j * HPanCopy offset HPan l j :=
    Finset.single_le_sum (f := fun l => HPanCopy offset HPan l j * HPanCopy offset HPan l j)
      (fun l _ => mul_self_nonneg _) (Finset.mem_univ i)
  rw [HPanCopy_diag offset HPan i j hi] at h1
  linarith

theorem panelStep_eq_sub (offset : Int) (HPan : Matrix (Fin h) (Fin k) ℚ)
    (ARight : Matrix (Fin m) (Fin h) ℚ) :
    panelStep offset HPan ARight
      = ARight - Z offset HPan ARight * (HPanCopy offset HPan).transpose := by
  ext r s
  simp [panelStep, GemmNT, Matrix.mul_apply, Matrix.sub_apply]
  ring

theorem gemm_eq_mul (offset : Int) (HPan : Matrix (Fin h) (Fin k) ℚ)
    (ARight : Matrix (Fin m) (Fin h) ℚ) :
    GemmNN 1 ARight (HPanCopy offset HPan) 0 (Zeros m k) = ARight * HPanCopy offset HPan := by
  ext r c
  simp [GemmNN, Zeros, Matrix.mul_apply]

theorem panelStep_eq_applyReflectors (offset : Int) (HPan : Matrix (Fin h) (Fin k) ℚ)
    (ARight : Matrix (Fin m) (Fin h) ℚ) :
    panelStep offset HPan ARight = applyReflectors (HPanCopy offset HPan) ARight := by
  have hs := reflectors_suffix (HPanCopy offset HPan) ARight (SInv offset HPan)
    (fun r c => 1 * GemmNN 1 ARight (HPanCopy offset HPan) 0 (Zeros m k) r c)
    (fun r c => by simp [GemmNN, Zeros])
    (fun i j hij => SInv_lower offset HPan i j hij)
    (fun j => SInv_diag offset HPan j) k 0 (by omega)
  rw [List.drop_zero] at hs
  ext r s
  rw [panelStep_eq_sub]
  unfold applyReflectors
  rw [hs r s]
  simp [Matrix.sub_apply, Matrix.mul_apply, Z, TrsmRLN]

theorem SInv_det_ne_zero (offset : Int) (w : Nat) (HPan : Matrix (Fin h) (Fin k) ℚ)
    (hoff : offset ≤ 0) (hk : k = HPanWidth w h offset) :
    (SInv offset HPan).det ≠ 0 := by
  rw [Matrix.det_of_lowerTriangular (SInv offset HPan)
    (fun i j hij => SInv_upper offset HPan i j hij)]
  refine Finset.prod_ne_zero_iff.mpr (fun j _ => ?_)
  rw [SInv_diag]
  have := gram_diag_pos offset w HPan hoff hk j
  exact ne_of_gt (by linarith)

/-- C10: over the rationals, for `offset <= 0` and a panel of the width the
loop computes, one panel step of the real local `ApplyPackedReflectorsRLVB`
replaces `ARight` by `ARight * H_{k-1} * ... * H_1 * H_0`, where `u_j` is
column `j` of the unit lower trapezoidal `U = HPanCopy`,
`H_j = I - tau_j u_j u_j^T` and `tau_j = 2/(u_j^T u_j)`.  The matrix `SInv` is
lower triangular, agrees with `U^T U` strictly below the diagonal and has the
diagonal `1/tau`; the triangular solve yields `Z SInv = ARight U`, and the
step equals `ARight (I - U SInv^{-1} U^T)`. -/
theorem panelStep_applies_reflectors (offset : Int) (w : Nat)
    (HPan : Matrix (Fin h) (Fin k) ℚ) (ARight : Matrix (Fin m) (Fin h) ℚ)
    (hoff : offset ≤ 0) (hk : k = HPanWidth w h offset) :
    panelStep offset HPan ARight = applyReflectors (HPanCopy offset HPan) ARight ∧
    (∀ (i : Fin h) (j : Fin k), (j.val : Int) - (i.val : Int) > offset →
      HPanCopy offset HPan i j = 0) ∧
    (∀ j : Fin k, ∃ i : Fin h, (j.val : Int) - (i.val : Int) = offset ∧
      HPanCopy offset HPan i j = 1) ∧
    (∀ i j : Fin k, j < i →
      SInv offset HPan i j = ((HPanCopy offset HPan).transpose * HPanCopy offset HPan) i j) ∧
    (∀ i j : Fin k, i < j → SInv offset HPan i j = 0) ∧
    (∀ j : Fin k, tau (HPanCopy offset HPan) j ≠ 0 ∧
      SInv offset HPan j j = 1 / tau (HPanCopy offset HPan) j) ∧
    Z offset HPan ARight * SInv offset HPan = ARight * HPanCopy offset HPan ∧
    panelStep offset HPan ARight
      = ARight * (1 - HPanCopy offset HPan * (SInv offset HPan)⁻¹
          * (HPanCopy offset HPan).transpose) := by
  have hpos := gram_diag_pos offset w HPan hoff hk
  have hdiag : ∀ j, SInv offset HPan j j ≠ 0 := fun j => by
    rw [SInv_diag]
    exact ne_of_gt (by linarith [hpos j])
  have hZ : Z offset HPan ARight * SInv offset HPan = ARight * HPanCopy offset HPan := by
    unfold Z
    rw [TrsmRLN_mul 1 _ _ hdiag (fun i j hij => SInv_upper offset HPan i j hij), one_smul,
      gemm_eq_mul]
  have hunit : IsUnit (SInv offset HPan).det :=
    isUnit_iff_ne_zero.mpr (SInv_det_ne_zero offset w HPan hoff hk)
  refine ⟨panelStep_eq_applyReflectors offset HPan ARight,
    fun i j hij => HPanCopy_upper offset HPan i j hij, ?_, ?_,
    fun i j hij => SInv_upper offset HPan i j hij, ?_, hZ, ?_⟩
  · intro j
    obtain ⟨i, hi⟩ := diag_row_exists offset w hoff hk j
    exact ⟨i, hi, HPanCopy_diag offset HPan i j hi⟩
  · intro i j hij
    rw [SInv_lower offset HPan i j hij, Matrix.mul_apply]
    rfl
  · intro j
    have hp := hpos j
    refine ⟨?_, ?_⟩
    · unfold tau
      exact div_ne_zero two_ne_zero (ne_of_gt hp)
    · rw [SInv_diag]
      unfold tau
      rw [one_div_div]
  · have hZeq : Z offset HPan ARight
        = ARight * HPanCopy offset HPan * (SInv offset HPan)⁻¹ := by
      rw [← hZ, Matrix.mul_assoc, Matrix.mul_nonsing_inv _ hunit, Matrix.mul_one]
    rw [panelStep_eq_sub, Matrix.mul_sub, Matrix.mul_one, hZeq, Matrix.mul_assoc,
      Matrix.mul_assoc, Matrix.mul_assoc]

/-- Witness for C10: `offset = 0`, a `2 x 1` panel with column `(5, 6)` and
the `1 x 2` matrix `ARight = (1, 2)`. -/
theorem panelStep_applies_reflectors_witness :
    ((0 : Int) ≤ 0 ∧ 1 = HPanWidth 1 2 0) ∧
    panelStep 0 (fun i _ => (i.val : ℚ) + 5 : Matrix (Fin 2) (Fin 1) ℚ)
        (fun _ c => (c.val : ℚ) + 1 : Matrix (Fin 1) (Fin 2) ℚ)
      = applyReflectors
          (HPanCopy 0 (fun i _ => (i.val : ℚ) + 5 : Matrix (Fin 2) (Fin 1) ℚ))
          (fun _ c => (c.val : ℚ) + 1 : Matrix (Fin 1) (Fin 2) ℚ) :=
  ⟨by decide,
   (panelStep_applies_reflectors 0 1 (fun i _ => (i.val : ℚ) + 5 : Matrix (Fin 2) (Fin 1) ℚ)
      (fun _ c => (c.val : ℚ) + 1 : Matrix (Fin 1) (Fin 2) ℚ) (le_refl 0) (by decide)).1⟩

end RLVB

/-! ## Further properties of the `[MR,MC]` assignment -/

/-- C12 (as stated, refuted): the `[MD,STAR]` source is converted through the
single intermediate matrix `[STAR,STAR]`, which has no `VC` or `VR` scheme. -/
theorem multiHop_not_always_linearCyclic :
    ¬ (∀ (g : Grid) (A B : Align) (p : Proc) (src : DistPair) (body : List Stmt),
        src ∈ multiHopSources → MR_MC.assign g A B p src = some body →
        (intermediates body).any isLinearCyclic1D = true) := by
  intro h
  have h0 := h ⟨1, 1⟩ ⟨0, 0⟩ ⟨0, 0⟩ ⟨0, 0⟩ (Dist.MD, Dist.STAR) MR_MC.assign_MD_STAR
    (by decide) rfl
  revert h0
  decide

/-- C12 (amended): the multi-hop conversions from `[MC,STAR]`, `[STAR,MR]`,
`[VC,STAR]` and `[STAR,VR]` create at least one intermediate matrix and every
intermediate matrix they create has a fully linear-cyclic one-dimensional
distribution; the multi-hop conversions from `[MD,STAR]` and `[STAR,MD]`
create the single intermediate matrix `[STAR,STAR]`, which has none. -/
theorem multiHop_intermediate_schemes (g : Grid) (A B : Align) (p : Proc) (src : DistPair)
    (body : List Stmt) (hsrc : src ∈ multiHopSources)
    (hbody : MR_MC.assign g A B p src = some body) :
    (src ∈ linearCyclicHopSources →
      (intermediates body).any isLinearCyclic1D = true ∧
      (intermediates body).all isLinearCyclic1D = true ∧ intermediates body ≠ []) ∧
    (src ∈ replicatedHopSources →
      intermediates body = [(Dist.STAR, Dist.STAR)] ∧
      (intermediates body).any isLinearCyclic1D = false) ∧
    (src ∈ linearCyclicHopSources ∨ src ∈ replicatedHopSources) := by
  obtain ⟨c, r⟩ := src
  cases c <;> cases r <;> simp only [MR_MC.assign] at hbody <;> cases hbody <;>
    first
    | exact ⟨by decide, by decide, by decide⟩
    | exact absurd hsrc (by decide)

/-- Witness for the amended C12: the `[STAR,MR]` source on a `2 x 3` grid. -/
theorem multiHop_intermediate_schemes_witness :
    ((Dist.STAR, Dist.MR) ∈ multiHopSources ∧
      MR_MC.assign ⟨2, 3⟩ ⟨0, 1⟩ ⟨1, 0⟩ ⟨1, 2⟩ (Dist.STAR, Dist.MR)
        = some MR_MC.assign_STAR_MR) ∧
    (intermediates MR_MC.assign_STAR_MR).any isLinearCyclic1D = true :=
  ⟨⟨by decide, rfl⟩, ((multiHop_intermediate_schemes ⟨2, 3⟩ ⟨0, 1⟩ ⟨1, 0⟩ ⟨1, 2⟩
    (Dist.STAR, Dist.MR) MR_MC.assign_STAR_MR (by decide) rfl).1 (by decide)).1⟩

/-- C14: on a square `r x r` grid with all alignments in `[0, r)`, `sendRank`
equals `recvRank` on every process if and only if
`(cb + rb) mod r = (ca + ra) mod r`; and when all four alignments are zero
both partners of the process at grid `(i, j)` are the process at the
transposed coordinate `(j, i)`. -/
theorem sendRank_eq_recvRank_iff (r : Nat) (A B : Align)
    (hca : A.colAlign < r) (hra : A.rowAlign < r) (hcb : B.colAlign < r)
    (hrb : B.rowAlign < r) :
    ((∀ i j, i < r → j < r →
        MR_MC.sendRank (squareGrid r) A B ⟨i, j⟩ = MR_MC.recvRank (squareGrid r) A B ⟨i, j⟩) ↔
      (B.colAlign + B.rowAlign) % r = (A.colAlign + A.rowAlign) % r) ∧
    (∀ i j, i < r → j < r →
      MR_MC.sendRank (squareGrid r) ⟨0, 0⟩ ⟨0, 0⟩ ⟨i, j⟩ = VCRank (squareGrid r) ⟨j, i⟩ ∧
      MR_MC.recvRank (squareGrid r) ⟨0, 0⟩ ⟨0, 0⟩ ⟨i, j⟩ = VCRank (squareGrid r) ⟨j, i⟩) := by
  have hr : 0 < r := by omega
  refine ⟨⟨fun h => ?_, fun hc i j hi hj => ?_⟩, fun i j hi hj => ?_⟩
  · exact (cond_of_sendRank_eq_recvRank r A B hra hcb (h 0 0 hr hr)).symm
  · exact sendRank_eq_recvRank_of_cond r A B i j hi hj hca hra hcb hrb hc.symm
  · rw [sendRank_coords, recvRank_coords]
    simp only [Shift, Nat.sub_zero, Nat.add_zero, Nat.add_mod_right, Nat.mod_mod,
      Nat.mod_eq_of_lt hi, Nat.mod_eq_of_lt hj, VCRank, Grid.Height, squareGrid]
    exact ⟨trivial, trivial⟩

/-- Witness for C14: the `3 x 3` grid with source alignments `(1, 2)` and
target alignments `(2, 1)`, at the process at grid `(2, 0)`. -/
theorem sendRank_eq_recvRank_iff_witness :
    (2 + 1) % 3 = (1 + 2) % 3 ∧
    MR_MC.sendRank (squareGrid 3) ⟨1, 2⟩ ⟨2, 1⟩ ⟨2, 0⟩
      = MR_MC.recvRank (squareGrid 3) ⟨1, 2⟩ ⟨2, 1⟩ ⟨2, 0⟩ :=
  ⟨by decide,
   (sendRank_eq_recvRank_iff 3 ⟨1, 2⟩ ⟨2, 1⟩ (by decide) (by decide) (by decide)
      (by decide)).1.2 (by decide) 2 0 (by decide) (by decide)⟩

/-! ## The product of two reflectors -/

namespace RLVB

section TwoReflectors

variable {K : Type} [Field K] [StarRing K] {n : Nat}

theorem reflector_mul_apply (tau0 tau1 : K) (u0 u1 : Fin n → K) (a b : Fin n) :
    (reflector tau1 u1 * reflector tau0 u0) a b
      = (if a = b then 1 else 0) - tau0 * u0 a * star (u0 b) - tau1 * u1 a * star (u1 b)
        + tau0 * tau1 * hdot u1 u0 * u1 a * star (u0 b) := by
  simp only [Matrix.mul_apply, reflector, sub_mul, mul_sub, Finset.sum_sub_distrib, hdot,
    Finset.mul_sum, Finset.sum_mul]
  simp only [ite_mul, mul_ite, one_mul, mul_one, zero_mul, mul_zero, Finset.sum_ite_eq,
    Finset.sum_ite_eq', Finset.mem_univ, if_true]
  have : ∀ x : Fin n, tau1 * u1 a * star (u1 x) * (tau0 * u0 x * star (u0 b))
      = tau0 * tau1 * (star (u1 x) * u0 x) * u1 a * star (u0 b) := fun x => by ring
  rw [Finset.sum_congr rfl (fun x _ => this x)]
  ring

theorem center_apply (tau0 tau1 : K) (u0 u1 : Fin n → K) (a b : Fin n) :
    (columns u0 u1 * centerS tau0 tau1 u0 u1 * (columns u0 u1).conjTranspose) a b
      = tau0 * u0 a * star (u0 b) + tau1 * u1 a * star (u1 b)
        - tau0 * tau1 * hdot u1 u0 * u1 a * star (u0 b) := by
  simp [Matrix.mul_apply, Fin.sum_univ_two, columns, centerS, Matrix.conjTranspose_apply]
  ring

/-- C11: for all vectors `u_0`, `u_1` of equal length and all scalars `tau_0`,
`tau_1`, `(I - tau_1 u_1 u_1^H)(I - tau_0 u_0 u_0^H)` equals
`I - [u_0, u_1] S [u_0, u_1]^H` with the lower-triangular center matrix
`S = [ tau_0, 0 ; -tau_0 tau_1 u_1^H u_0, tau_1 ]`; the matrix `T` with
`T_10 = u_1^H u_0`, the strictly lower part of `U^H U`, and the diagonal
`1/tau_0`, `1/tau_1` is, for non-zero `tau_0` and `tau_1`, the inverse of `S`. -/
theorem two_reflectors_center (tau0 tau1 : K) (u0 u1 : Fin n → K) :
    reflector tau1 u1 * reflector tau0 u0
      = 1 - columns u0 u1 * centerS tau0 tau1 u0 u1 * (columns u0 u1).conjTranspose ∧
    (centerS tau0 tau1 u0 u1 0 0 = tau0 ∧ centerS tau0 tau1 u0 u1 0 1 = 0 ∧
      centerS tau0 tau1 u0 u1 1 0 = -(tau0 * tau1 * hdot u1 u0) ∧
      centerS tau0 tau1 u0 u1 1 1 = tau1) ∧
    (centerT tau0 tau1 u0 u1 1 0 = hdot u1 u0 ∧
      centerT tau0 tau1 u0 u1 1 0
        = ((columns u0 u1).conjTranspose * columns u0 u1) 1 0 ∧
      centerT tau0 tau1 u0 u1 0 0 = 1 / tau0 ∧ centerT tau0 tau1 u0 u1 1 1 = 1 / tau1 ∧
      centerT tau0 tau1 u0 u1 0 1 = 0) ∧
    (tau0 ≠ 0 → tau1 ≠ 0 →
      centerS tau0 tau1 u0 u1 * centerT tau0 tau1 u0 u1 = 1 ∧
      centerT tau0 tau1 u0 u1 * centerS tau0 tau1 u0 u1 = 1 ∧
      (centerS tau0 tau1 u0 u1)⁻¹ = centerT tau0 tau1 u0 u1) := by
  have hT10 : centerT tau0 tau1 u0 u1 1 0 = hdot u1 u0 := by
    simp [centerT, columns, hdot, Matrix.mul_apply, Matrix.conjTranspose_apply]
  have hT00 : centerT tau0 tau1 u0 u1 0 0 = 1 / tau0 := by simp [centerT]
  have hT11 : centerT tau0 tau1 u0 u1 1 1 = 1 / tau1 := by simp [centerT]
  have hT01 : centerT tau0 tau1 u0 u1 0 1 = 0 := by simp [centerT]
  have hU : ((columns u0 u1).conjTranspose * columns u0 u1) 1 0 = hdot u1 u0 := by
    simp [columns, hdot, Matrix.mul_apply, Matrix.conjTranspose_apply]
  have hS00 : centerS tau0 tau1 u0 u1 0 0 = tau0 := by simp [centerS]
  have hS01 : centerS tau0 tau1 u0 u1 0 1 = 0 := by simp [centerS]
  have hS10 : centerS tau0 tau1 u0 u1 1 0 = -(tau0 * tau1 * hdot u1 u0) := by
    simp [centerS]
  have hS11 : centerS tau0 tau1 u0 u1 1 1 = tau1 := by simp [centerS]
  refine ⟨?_, ⟨hS00, hS01, hS10, hS11⟩, ⟨hT10, hT10.trans hU.symm, hT00, hT11, hT01⟩, ?_⟩
  · ext a b
    rw [reflector_mul_apply, Matrix.sub_apply, center_apply, Matrix.one_apply]
    ring
  · intro h0 h1
    have hST : centerS tau0 tau1 u0 u1 * centerT tau0 tau1 u0 u1 = 1 := by
      ext i j
      fin_cases i <;> fin_cases j <;>
        simp [Matrix.mul_apply, Fin.sum_univ_two, hS00, hS01, hS10, hS11, hT00, hT01, hT10,
          hT11, h0, h1]
      field_simp
      ring
    have hTS : centerT tau0 tau1 u0 u1 * centerS tau0 tau1 u0 u1 = 1 := by
      ext i j
      fin_cases i <;> fin_cases j <;>
        simp [Matrix.mul_apply, Fin.sum_univ_two, hS00, hS01, hS10, hS11, hT00, hT01, hT10,
          hT11, h0, h1]
      field_simp
      ring
    exact ⟨hST, hTS, Matrix.inv_eq_right_inv hST⟩

/-- Witness for C11: over the rationals, `tau_0 = 2`, `tau_1 = 3`,
`u_0 = (1, 2)` and `u_1 = (3, 5)`. -/
theorem two_reflectors_center_witness :
    ((2 : ℚ) ≠ 0 ∧ (3 : ℚ) ≠ 0) ∧
    centerS (2 : ℚ) 3 (fun i : Fin 2 => (i.val : ℚ) + 1) (fun i : Fin 2 => 2 * (i.val : ℚ) + 3)
      * centerT (2 : ℚ) 3 (fun i : Fin 2 => (i.val : ℚ) + 1)
          (fun i : Fin 2 => 2 * (i.val : ℚ) + 3) = 1 :=
  ⟨by decide,
   ((two_reflectors_center (2 : ℚ) 3 (fun i : Fin 2 => (i.val : ℚ) + 1)
      (fun i : Fin 2 => 2 * (i.val : ℚ) + 3)).2.2.2 (by decide) (by decide)).1⟩

end TwoReflectors

end RLVB

/-! ## The Redheffer fills -/

section Fill

variable {S F T : Type} (set : S → Nat → Nat → T → Option S) (get : S → Nat → Nat → T)
  (frame : S → F) (hF wF : F → Nat)

/-- A loop over the rows `0, ..., rows - 1` of column `j` that writes
`val i` at `(i, j)` succeeds and changes exactly these entries. -/
theorem fill_column
    (hset : ∀ s i j v, i < hF (frame s) → j < wF (frame s) →
      ∃ s', set s i j v = some s' ∧ frame s' = frame s ∧
        ∀ a b, get s' a b = if a = i ∧ b = j then v else get s a b)
    (body : S → Nat → Option S) (val : Nat → T) (j : Nat)
    (hbody : ∀ s i, body s i = set s i j (val i)) :
    ∀ (rows : Nat) (s : S), rows ≤ hF (frame s) → j < wF (frame s) →
      ∃ s', (List.range rows).foldlM body s = some s' ∧ frame s' = frame s ∧
        ∀ a b, get s' a b = if a < rows ∧ b = j then val a else get s a b := by
  intro rows
  induction rows with
  | zero =>
    intro s _ _
    exact ⟨s, rfl, rfl, fun a b => by simp⟩
  | succ rows ih =>
    intro s hrows hj
    obtain ⟨s1, h1, hf1, hg1⟩ := ih s (by omega) hj
    obtain ⟨s2, h2, hf2, hg2⟩ := hset s1 rows j (val rows) (by rw [hf1]; omega)
      (by rw [hf1]; exact hj)
    refine ⟨s2, ?_, hf2.trans hf1, fun a b => ?_⟩
    · rw [List.range_succ, List.foldlM_append, h1]
      simp [hbody, h2]
    · rw [hg2, hg1]
      by_cases hb : b = j
      · by_cases ha : a = rows
        · simp [ha, hb]
        · by_cases ha' : a < rows
          · have : a < rows + 1 := by omega
            simp [ha, hb, ha', this]
          · have : ¬ a < rows + 1 := by omega
            simp [ha, hb, ha', this]
      · simp [hb]

/-- A loop over the columns `0, ..., cols - 1`, each filled by a loop over the
rows `0, ..., rows - 1`, succeeds and changes exactly these entries. -/
theorem fill_block
    (hset : ∀ s i j v, i < hF (frame s) → j < wF (frame s) →
      ∃ s', set s i j v = some s' ∧ frame s' = frame s ∧
        ∀ a b, get s' a b = if a = i ∧ b = j then v else get s a b)
    (body : Nat → S → Nat → Option S) (val : Nat → Nat → T)
    (hbody : ∀ j s i, body j s i = set s i j (val i j)) (rows : Nat) :
    ∀ (cols : Nat) (s : S), rows ≤ hF (frame s) → cols ≤ wF (frame s) →
      ∃ s', (List.range cols).foldlM (fun s j => (List.range rows).foldlM (body j) s) s
          = some s' ∧ frame s' = frame s ∧
        ∀ a b, get s' a b = if a < rows ∧ b < cols then val a b else get s a b := by
  intro cols
  induction cols with
  | zero =>
    intro s _ _
    exact ⟨s, rfl, rfl, fun a b => by simp⟩
  | succ cols ih =>
    intro s hrows hcols
    obtain ⟨s1, h1, hf1, hg1⟩ := ih s hrows (by omega)
    obtain ⟨s2, h2, hf2, hg2⟩ := fill_column set get frame hF wF hset (body cols)
      (fun i => val i cols) cols (hbody cols) rows s1 (by rw [hf1]; exact hrows)
      (by rw [hf1]; omega)
    refine ⟨s2, ?_, hf2.trans hf1, fun a b => ?_⟩
    · rw [List.range_succ, List.foldlM_append, h1]
      simp [h2]
    · rw [hg2, hg1]
      by_cases ha : a < rows
      · by_cases hb : b = cols
        · simp [ha, hb]
        · by_cases hb' : b < cols
          · have : b < cols + 1 := by omega
            simp [ha, hb, hb', this]
          · have : ¬ b < cols + 1 := by omega
            simp [ha, hb, hb', this]
      · simp [ha]

end Fill

section RedhefferFill

variable {T : Type}

theorem LocalMatrix.Set_spec (M : LocalMatrix T) (i j : Nat) (v : T)
    (hi : i < (M.height, M.width).1) (hj : j < (M.height, M.width).2) :
    ∃ M', M.Set i j v = some M' ∧ (M'.height, M'.width) = (M.height, M.width) ∧
      ∀ a b, M'.entry a b = if a = i ∧ b = j then v else M.entry a b := by
  have h : i < M.height ∧ j < M.width := ⟨hi, hj⟩
  exact ⟨{ M with entry := fun a b => if a = i ∧ b = j then v else M.entry a b },
    by simp only [LocalMatrix.Set, h, and_self, if_true], rfl, fun _ _ => rfl⟩

theorem DistMatrix.SetLocal_spec (R : DistMatrix T) (i j : Nat) (v : T)
    (hi : i < R.frame.1.1) (hj : j < R.frame.1.2) :
    ∃ R', R.SetLocal i j v = some R' ∧ R'.frame = R.frame ∧
      ∀ a b, R'.localMatrix.entry a b
        = if a = i ∧ b = j then v else R.localMatrix.entry a b := by
  have h : i < R.localMatrix.height ∧ j < R.localMatrix.width := ⟨hi, hj⟩
  exact ⟨{ R with localMatrix :=
      { R.localMatrix with
        entry := fun a b => if a = i ∧ b = j then v else R.localMatrix.entry a b } },
    by simp only [DistMatrix.SetLocal, LocalMatrix.Set, h, and_self, if_true,
      Option.map_some'], rfl, fun _ _ => rfl⟩

theorem Length_bound (n shift stride iLocal : Nat) (hs : 1 ≤ stride)
    (h : iLocal < Length n shift stride) : shift + iLocal * stride < n := by
  unfold Length at h
  split at h
  · have h1 : iLocal ≤ (n - shift - 1) / stride := by omega
    have h2 := (Nat.le_div_iff_mul_le hs).1 h1
    omega
  · omega

variable [Zero T] [One T]

theorem redhefferValue_eq_entry (i j : Nat) : redhefferValue T i j = redhefferEntry T i j := by
  unfold redhefferValue redhefferEntry
  simp only [Nat.dvd_iff_mod_eq_zero]

theorem Redheffer_spec (R0 : LocalMatrix T) (n : Nat) :
    ∃ R, Redheffer R0 n = some R ∧ R.height = n ∧ R.width = n ∧
      ∀ i j, i < n → j < n → R.entry i j = redhefferValue T i j := by
  obtain ⟨R, h, hf, hg⟩ := fill_block LocalMatrix.Set LocalMatrix.entry
    (fun M : LocalMatrix T => (M.height, M.width)) Prod.fst Prod.snd
    (fun M i j v hi hj => LocalMatrix.Set_spec M i j v hi hj)
    (fun j R i => if j = 0 ∨ (j + 1) % (i + 1) = 0 then R.Set i j 1 else R.Set i j 0)
    (fun i j => redhefferValue T i j)
    (fun j R i => by
      unfold redhefferValue
      beta_reduce
      split <;> rfl)
    n n (R0.ResizeTo n n) (le_refl n) (le_refl n)
  have hf' : R.height = n ∧ R.width = n := by
    have h1 := congrArg Prod.fst hf
    have h2 := congrArg Prod.snd hf
    exact ⟨h1, h2⟩
  refine ⟨R, h, hf'.1, hf'.2, fun i j hi hj => ?_⟩
  rw [hg i j]
  simp [hi, hj]

theorem RedhefferDist_spec (D0 : DistMatrix T) (n : Nat) :
    ∃ D, RedhefferDist D0 n = some D ∧
      D.frame = ((Length n D0.colShift D0.colStride, Length n D0.rowShift D0.rowStride),
        (n, n), (D0.colShift, D0.rowShift), (D0.colStride, D0.rowStride)) ∧
      ∀ iLocal jLocal, iLocal < Length n D0.colShift D0.colStride →
        jLocal < Length n D0.rowShift D0.rowStride →
        D.localMatrix.entry iLocal jLocal
          = redhefferValue T (D0.colShift + iLocal * D0.colStride)
              (D0.rowShift + jLocal * D0.rowStride) := by
  obtain ⟨D, h, hf, hg⟩ := fill_block DistMatrix.SetLocal
    (fun D : DistMatrix T => D.localMatrix.entry) DistMatrix.frame
    (fun f => f.1.1) (fun f => f.1.2)
    (fun D i j v hi hj => DistMatrix.SetLocal_spec D i j v hi hj)
    (fun jLocal R iLocal =>
      if D0.rowShift + jLocal * D0.rowStride = 0 ∨
          (D0.rowShift + jLocal * D0.rowStride + 1)
            % (D0.colShift + iLocal * D0.colStride + 1) = 0 then
        R.SetLocal iLocal jLocal 1
      else
        R.SetLocal iLocal jLocal 0)
    (fun iLocal jLocal => redhefferValue T (D0.colShift + iLocal * D0.colStride)
      (D0.rowShift + jLocal * D0.rowStride))
    (fun j R i => by
      unfold redhefferValue
      beta_reduce
      split <;> rfl)
    (Length n D0.colShift D0.colStride) (Length n D0.rowShift D0.rowStride)
    (D0.ResizeTo n n) (le_refl _) (le_refl _)
  refine ⟨D, h, hf, fun iLocal jLocal hi hj => ?_⟩
  rw [hg iLocal jLocal]
  simp [hi, hj]

/-- C13: the distributed Redheffer fill refines the sequential one.  For every
`n`, all shifts and all strides `>= 1`, both fills return; the local block of
the distributed matrix has the local extents of `n` in both dimensions; and
at every local position `(iLocal, jLocal)` inside it the global position
`(i, j) = (colShift + iLocal*colStride, rowShift + jLocal*rowStride)` lies
inside the `n x n` matrix and the distributed fill stores the value the
sequential fill stores at `(i, j)`: `1` if `j = 0` or `i + 1` divides `j + 1`,
and `0` otherwise. -/
theorem RedhefferDist_refines_Redheffer (R0 : LocalMatrix T) (D0 : DistMatrix T) (n : Nat)
    (hcol : 1 ≤ D0.colStride) (hrow : 1 ≤ D0.rowStride) :
    ∃ R D, Redheffer R0 n = some R ∧ RedhefferDist D0 n = some D ∧
      R.height = n ∧ R.width = n ∧ D.height = n ∧ D.width = n ∧
      D.ColShift = D0.colShift ∧ D.RowShift = D0.rowShift ∧
      D.ColStride = D0.colStride ∧ D.RowStride = D0.rowStride ∧
      D.LocalHeight = Length n D0.colShift D0.colStride ∧
      D.LocalWidth = Length n D0.rowShift D0.rowStride ∧
      ∀ iLocal jLocal, iLocal < D.LocalHeight → jLocal < D.LocalWidth →
        D0.colShift + iLocal * D0.colStride < n ∧
        D0.rowShift + jLocal * D0.rowStride < n ∧
        D.localMatrix.entry iLocal jLocal
          = R.entry (D0.colShift + iLocal * D0.colStride)
              (D0.rowShift + jLocal * D0.rowStride) ∧
        R.entry (D0.colShift + iLocal * D0.colStride) (D0.rowShift + jLocal * D0.rowStride)
          = redhefferEntry T (D0.colShift + iLocal * D0.colStride)
              (D0.rowShift + jLocal * D0.rowStride) := by
  obtain ⟨R, hR, hRh, hRw, hRe⟩ := Redheffer_spec R0 n
  obtain ⟨D, hD, hDf, hDe⟩ := RedhefferDist_spec D0 n
  have hLH : D.LocalHeight = Length n D0.colShift D0.colStride :=
    congrArg (fun f => f.1.1) hDf
  have hLW : D.LocalWidth = Length n D0.rowShift D0.rowStride :=
    congrArg (fun f => f.1.2) hDf
  refine ⟨R, D, hR, hD, hRh, hRw, congrArg (fun f => f.2.1.1) hDf,
    congrArg (fun f => f.2.1.2) hDf, congrArg (fun f => f.2.2.1.1) hDf,
    congrArg (fun f => f.2.2.1.2) hDf, congrArg (fun f => f.2.2.2.1) hDf,
    congrArg (fun f => f.2.2.2.2) hDf, hLH, hLW, fun iLocal jLocal hi hj => ?_⟩
  rw [hLH] at hi
  rw [hLW] at hj
  have hi' := Length_bound n D0.colShift D0.colStride iLocal hcol hi
  have hj' := Length_bound n D0.rowShift D0.rowStride jLocal hrow hj
  refine ⟨hi', hj', ?_, ?_⟩
  · rw [hDe iLocal jLocal hi hj, hRe _ _ hi' hj']
  · rw [hRe _ _ hi' hj', redhefferValue_eq_entry]

/-- Witness for C13: `n = 7` on a process with shifts `(1, 0)` and strides
`(2, 3)`, over the integers. -/
theorem RedhefferDist_refines_Redheffer_witness :
    ((1 : Nat) ≤ 2 ∧ (1 : Nat) ≤ 3) ∧
    ∃ (R : LocalMatrix Int) (D : DistMatrix Int),
      Redheffer ⟨0, 0, fun _ _ => 0⟩ 7 = some R ∧
      RedhefferDist ⟨0, 0, 1, 0, 2, 3, ⟨0, 0, fun _ _ => 0⟩⟩ 7 = some D ∧
      D.LocalHeight = 3 ∧ D.LocalWidth = 3 ∧
      D.localMatrix.entry 1 2 = R.entry 3 6 :=
  ⟨by decide,
   let ⟨R, D, hR, hD, _, _, _, _, _, _, _, _, hLH, hLW, hE⟩ :=
     RedhefferDist_refines_Redheffer (⟨0, 0, fun _ _ => 0⟩ : LocalMatrix Int)
       ⟨0, 0, 1, 0, 2, 3, ⟨0, 0, fun _ _ => 0⟩⟩ 7 (by decide) (by decide)
   ⟨R, D, hR, hD, hLH, hLW,
     (hE 1 2 (by rw [hLH]; decide) (by rw [hLW]; decide)).2.2.1⟩⟩

end RedhefferFill

end El
